import Mathlib

/-!
Verification of the fend core: the unit-algebra engine (src/core/src/num/unit.rs)
and the recursive-descent parser (src/core/src/parser.rs), embedded shallowly.
Rust HashMaps are modelled as association lists compared extensionally; a Rust
panic (a `.unwrap()` on an `Err`) is modelled as `Option.none` at the level of
the operation that would abort.
-/

set_option maxHeartbeats 1000000

namespace Fend

/-- Modelled from the spec: the external exact-number kernel (`ExactBase`,
not under src/) is an opaque exact scalar; the unit-algebra claims only ever
need its rational fragment, so it is modelled as `ℚ`. -/
abbrev ExactBase := ℚ

namespace ExactBase

/-- Modelled from the spec: kernel division "fails if divisor is exactly zero". -/
def div (a b : ℚ) : Except String ℚ :=
  if b = 0 then .error "Attempt to divide by zero" else .ok (a / b)

/-- Integer power of a rational; raising zero to a negative power fails. -/
def intPow (q : ℚ) (n : ℤ) : Except String ℚ :=
  if q = 0 ∧ n < 0 then .error "Attempt to divide by zero"
  else if 0 ≤ n then .ok (q ^ n.toNat)
  else .ok ((q ^ (-n).toNat)⁻¹)

/-- Exact n-th root of a natural number, if one exists (bounded search). -/
def natRootExact (m n : ℕ) : Option ℕ :=
  (List.range (m + 1)).find? (fun r => r ^ n == m)

/-- Exact n-th root of a nonnegative rational, if representable. -/
def ratRootExact (p : ℚ) (n : ℕ) : Option ℚ :=
  match natRootExact p.num.toNat n, natRootExact p.den n with
  | some a, some b => some ((a : ℚ) / (b : ℚ))
  | _, _ => none

/-- Modelled from the spec: kernel exponentiation by an exact rational.
Integer exponents always work (except a negative power of zero); a
non-integer exponent of a negative base fails (e.g. an even root of a
negative scale), and a non-integer exponent of a nonnegative base succeeds
exactly when the root is representable as an exact rational. -/
def pow (q e : ℚ) : Except String ℚ :=
  if e.den = 1 then intPow q e.num
  else if q < 0 then .error "Roots of negative numbers are not supported"
  else
    match intPow q e.num with
    | .ok p =>
      match ratRootExact p e.den with
      | some r => .ok r
      | none => .error "Cannot represent the result of this root exactly"
    | .error err => .error err

/-- Modelled from the spec: the n-th root of `a` by degree `n`. -/
def root_n (a n : ℚ) : Except String ℚ :=
  if n = 0 then .error "Cannot compute the zeroth root" else pow a n⁻¹

end ExactBase

/-- Represents a base unit, identified solely by its name. -/
structure BaseUnit where
  name : String
deriving DecidableEq

/-- A named unit, like kilogram, megabyte or percent. The `base_units`
HashMap is modelled as an association list. -/
structure NamedUnit where
  singular_name : String
  plural_name : String
  spacing : Bool
  base_units : List (BaseUnit × ℚ)
  scale : ℚ
deriving DecidableEq

/-- A unit together with an exact rational exponent. -/
structure UnitExponent where
  unit : NamedUnit
  exponent : ℚ
deriving DecidableEq

/-- An unreduced product of named units: the surface unit product. -/
structure Unit where
  components : List UnitExponent
deriving DecidableEq

/-- A quantity: an exact numeric value paired with a surface unit product. -/
structure UnitValue where
  value : ExactBase
  unit : Unit
deriving DecidableEq

/-! ### Association-list model of `HashMap<BaseUnit, ExactBase>` -/

/-- Lookup in the association-list model of a HashMap. -/
def hmLookup (k : BaseUnit) : List (BaseUnit × ℚ) → Option ℚ
  | [] => none
  | p :: rest => if p.1 = k then some p.2 else hmLookup k rest

/-- Remove a key from the association-list model of a HashMap. -/
def hmRemove (k : BaseUnit) : List (BaseUnit × ℚ) → List (BaseUnit × ℚ)
  | [] => []
  | p :: rest => if p.1 = k then hmRemove k rest else p :: hmRemove k rest

/-- Overwrite the value stored at a key (insert if absent). -/
def hmSet (k : BaseUnit) (v : ℚ) : List (BaseUnit × ℚ) → List (BaseUnit × ℚ)
  | [] => [(k, v)]
  | p :: rest => if p.1 = k then (k, v) :: rest else p :: hmSet k v rest

/-- Equality test of two HashMaps as Rust implements it: equal sizes, and
every entry of the left map is present with an equal value in the right map. -/
def hmBeq (a b : List (BaseUnit × ℚ)) : Bool :=
  (a.length == b.length) && a.all (fun p => hmLookup p.1 b == some p.2)

/-- One iteration of the inner loop of `Unit::into_hashmap_and_scale`:
accumulate `overall * base_exp` into the running basis mapping, removing an
entry whose accumulated exponent becomes exactly zero and never inserting a
zero entry. -/
def insertBase (overall : ℚ) (hm : List (BaseUnit × ℚ)) (p : BaseUnit × ℚ) :
    List (BaseUnit × ℚ) :=
  match hmLookup p.1 hm with
  | some e =>
    let newExp := e + overall * p.2
    if newExp = 0 then hmRemove p.1 hm else hmSet p.1 newExp hm
  | none =>
    let newExp := overall * p.2
    if newExp = 0 then hm else (p.1, newExp) :: hm

/-- One iteration of the outer loop of `Unit::into_hashmap_and_scale`:
fold the entry's base units into the running basis mapping, then multiply the
running scale by the named unit scale raised to the entry's exponent. The
Rust code `.unwrap()`s that exponentiation, so its failure panics (`none`). -/
def flattenStep (st : Option (List (BaseUnit × ℚ) × ℚ)) (ne : UnitExponent) :
    Option (List (BaseUnit × ℚ) × ℚ) :=
  match st with
  | none => none
  | some (hashmap, scale) =>
    let hashmap2 := ne.unit.base_units.foldl (insertBase ne.exponent) hashmap
    match ExactBase.pow ne.unit.scale ne.exponent with
    | .ok p => some (hashmap2, scale * p)
    | .error _ => none

/-- Flatten a unit product to `(basis mapping, scale)`; `none` models the
panic of the unwrapped scale exponentiation. -/
def Unit.into_hashmap_and_scale (u : Unit) : Option (List (BaseUnit × ℚ) × ℚ) :=
  u.components.foldl flattenStep (some ([], 1))

/-- Convert between two unit products: flatten both; if the basis mappings
are equal return the ratio of the scales, else an incompatible-units error.
The Rust code `.unwrap()`s the division of the two scales, so a failing
division panics (`none`). -/
def Unit.try_convert (fromUnit intoUnit : Unit) : Option (Except String ℚ) :=
  match fromUnit.into_hashmap_and_scale, intoUnit.into_hashmap_and_scale with
  | some (hash_a, scale_a), some (hash_b, scale_b) =>
    if hmBeq hash_a hash_b then
      match ExactBase.div scale_a scale_b with
      | .ok v => some (.ok v)
      | .error _ => none
    else some (.error "Units are incompatible")
  | _, _ => none

/-- The empty unit product. -/
def Unit.unitless : Unit := ⟨[]⟩

namespace UnitValue

/-- Addition: the right operand must convert to the left operand unit; the
result keeps the left operand unit. A panic inside conversion propagates. -/
def add (a rhs : UnitValue) : Option (Except String UnitValue) :=
  match Unit.try_convert rhs.unit a.unit with
  | none => none
  | some (.error e) => some (.error e)
  | some (.ok scale_factor) =>
    some (.ok ⟨a.value + rhs.value * scale_factor, a.unit⟩)

/-- Subtraction: identical to addition except for subtracting. -/
def sub (a rhs : UnitValue) : Option (Except String UnitValue) :=
  match Unit.try_convert rhs.unit a.unit with
  | none => none
  | some (.error e) => some (.error e)
  | some (.ok scale_factor) =>
    some (.ok ⟨a.value - rhs.value * scale_factor, a.unit⟩)

/-- Conversion to a target unit: the target must carry the numeric value 1;
then convert the unit, keep the target unit. -/
def convert_to (a rhs : UnitValue) : Option (Except String UnitValue) :=
  if rhs.value ≠ 1 then
    some (.error "Right-hand side of unit conversion has a numerical value")
  else
    match Unit.try_convert a.unit rhs.unit with
    | none => none
    | some (.error e) => some (.error e)
    | some (.ok scale_factor) =>
      some (.ok ⟨a.value * scale_factor, rhs.unit⟩)

/-- Division: the unit products concatenate, the right one with negated
exponents; a kernel division failure (division by exactly zero) is an error. -/
def div (a rhs : UnitValue) : Except String UnitValue :=
  let components :=
    a.unit.components ++ rhs.unit.components.map (fun c => ⟨c.unit, -c.exponent⟩)
  match ExactBase.div a.value rhs.value with
  | .ok v => .ok ⟨v, ⟨components⟩⟩
  | .error e => .error e

/-- The purely syntactic dimensionless test: the surface unit product has
zero entries. -/
def is_unitless (a : UnitValue) : Bool := a.unit.components.isEmpty

/-- Exponentiation: both operands must be syntactically unitless. -/
def pow (a rhs : UnitValue) : Except String UnitValue :=
  if !a.is_unitless || !rhs.is_unitless then
    .error "Exponents are currently only supported for unitless numbers."
  else
    match ExactBase.pow a.value rhs.value with
    | .ok v => .ok ⟨v, a.unit⟩
    | .error e => .error e

/-- Roots: both operands must be syntactically unitless. -/
def root_n (a rhs : UnitValue) : Except String UnitValue :=
  if !a.is_unitless || !rhs.is_unitless then
    .error "Roots are currently only supported for unitless numbers."
  else
    match ExactBase.root_n a.value rhs.value with
    | .ok v => .ok ⟨v, a.unit⟩
    | .error e => .error e

/-- Negation leaves the unit unchanged. -/
def neg (a : UnitValue) : UnitValue := ⟨-a.value, a.unit⟩

/-- Multiplication: values multiply and the unit products concatenate, the
left operand entries first, unreduced. -/
def mul (a rhs : UnitValue) : UnitValue :=
  ⟨a.value * rhs.value, ⟨a.unit.components ++ rhs.unit.components⟩⟩

end UnitValue

/-! ### The canonical (flattened) dimensional signature, spec side -/

/-- Total exponent contributed to the key `k` by an association list: the sum
of the values stored under `k`. -/
def keyMass (k : BaseUnit) (l : List (BaseUnit × ℚ)) : ℚ :=
  (l.map (fun p => if p.1 = k then p.2 else 0)).sum

/-- The accumulated exponent of the base dimension `k` in a unit product:
the sum over all entries of the entry exponent times the named unit basis
exponent for `k`. -/
def Unit.totalExp (u : Unit) (k : BaseUnit) : ℚ :=
  (u.components.map (fun ne => ne.exponent * keyMass k ne.unit.base_units)).sum

/-- The list of scale powers of a unit product, when all of them succeed. -/
def powList : List UnitExponent → Option (List ℚ)
  | [] => some []
  | ne :: rest =>
    match ExactBase.pow ne.unit.scale ne.exponent, powList rest with
    | .ok p, some ps => some (p :: ps)
    | _, _ => none

/-! ### Characterization of the association-list operations -/

theorem hmLookup_hmRemove (k k' : BaseUnit) (l : List (BaseUnit × ℚ)) :
    hmLookup k (hmRemove k' l) = if k' = k then none else hmLookup k l := by
  induction l with
  | nil => simp [hmRemove, hmLookup]
  | cons p rest ih =>
    simp only [hmRemove, hmLookup]
    by_cases hp : p.1 = k' <;> by_cases hk : k' = k <;> by_cases hpk : p.1 = k <;>
      simp_all [hmLookup]

theorem hmLookup_hmSet (k k' : BaseUnit) (v : ℚ) (l : List (BaseUnit × ℚ)) :
    hmLookup k (hmSet k' v l) = if k' = k then some v else hmLookup k l := by
  induction l with
  | nil => simp [hmSet, hmLookup]
  | cons p rest ih =>
    simp only [hmSet, hmLookup]
    by_cases hp : p.1 = k' <;> by_cases hk : k' = k <;> by_cases hpk : p.1 = k <;>
      simp_all [hmLookup]

theorem hmLookup_eq_none (k : BaseUnit) (l : List (BaseUnit × ℚ)) :
    hmLookup k l = none ↔ k ∉ l.map Prod.fst := by
  induction l with
  | nil => simp [hmLookup]
  | cons p rest ih =>
    simp only [hmLookup, List.map_cons, List.mem_cons]
    by_cases hp : p.1 = k <;> simp_all [eq_comm]

theorem hmLookup_of_mem_nodup {l : List (BaseUnit × ℚ)}
    (hnd : (l.map Prod.fst).Nodup) {p : BaseUnit × ℚ} (hp : p ∈ l) :
    hmLookup p.1 l = some p.2 := by
  induction l with
  | nil => simp at hp
  | cons q rest ih =>
    simp only [List.map_cons, List.nodup_cons] at hnd
    rcases List.mem_cons.mp hp with h | h
    · subst h; simp [hmLookup]
    · have hne : q.1 ≠ p.1 := by
        intro he
        exact hnd.1 (he ▸ List.mem_map_of_mem Prod.fst h)
      simp [hmLookup, hne, ih hnd.2 h]

theorem mem_keys_of_hmLookup {k : BaseUnit} {v : ℚ} {l : List (BaseUnit × ℚ)}
    (h : hmLookup k l = some v) : k ∈ l.map Prod.fst := by
  by_contra hmem
  rw [← hmLookup_eq_none] at hmem
  simp [hmem] at h

theorem hmRemove_sublist (k : BaseUnit) (l : List (BaseUnit × ℚ)) :
    (hmRemove k l).Sublist l := by
  induction l with
  | nil => simp [hmRemove]
  | cons p rest ih =>
    simp only [hmRemove]
    split
    · exact ih.trans (List.sublist_cons_self p rest)
    · exact ih.cons₂ p

theorem nodup_hmRemove {k : BaseUnit} {l : List (BaseUnit × ℚ)}
    (h : (l.map Prod.fst).Nodup) : ((hmRemove k l).map Prod.fst).Nodup :=
  h.sublist ((hmRemove_sublist k l).map Prod.fst)

theorem hmKeys_hmSet (k : BaseUnit) (v : ℚ) (l : List (BaseUnit × ℚ)) :
    (hmSet k v l).map Prod.fst =
      if k ∈ l.map Prod.fst then l.map Prod.fst else l.map Prod.fst ++ [k] := by
  induction l with
  | nil => simp [hmSet]
  | cons p rest ih =>
    simp only [hmSet]
    by_cases hp : p.1 = k
    · simp [hp]
    · simp only [if_neg hp, List.map_cons, ih]
      by_cases hm : k ∈ rest.map Prod.fst <;>
        simp [hm, hp, Ne.symm hp, List.mem_cons]

theorem nodup_hmSet {k : BaseUnit} {v : ℚ} {l : List (BaseUnit × ℚ)}
    (h : (l.map Prod.fst).Nodup) : ((hmSet k v l).map Prod.fst).Nodup := by
  rw [hmKeys_hmSet]
  split
  · exact h
  · rw [List.nodup_append]
    refine ⟨h, List.nodup_singleton k, ?_⟩
    intro x hx hk
    simp only [List.mem_singleton] at hk
    subst hk
    simp_all

/-- The basis mapping is canonical for an exponent function: lookups agree
with the function, exactly-zero accumulated exponents are absent, and each
key occurs at most once. -/
def Canon (hm : List (BaseUnit × ℚ)) (f : BaseUnit → ℚ) : Prop :=
  (∀ k, hmLookup k hm = if f k = 0 then none else some (f k)) ∧
    (hm.map Prod.fst).Nodup

theorem Canon.congr {hm : List (BaseUnit × ℚ)} {f g : BaseUnit → ℚ}
    (h : Canon hm f) (hfg : ∀ k, f k = g k) : Canon hm g :=
  ⟨fun k => by rw [← hfg k]; exact h.1 k, h.2⟩

theorem Canon.nil : Canon [] (fun _ => 0) :=
  ⟨fun k => by simp [hmLookup], by simp⟩

theorem Canon.insertBase {hm : List (BaseUnit × ℚ)} {f : BaseUnit → ℚ}
    (h : Canon hm f) (o : ℚ) (p : BaseUnit × ℚ) :
    Canon (insertBase o hm p)
      (fun k => f k + if p.1 = k then o * p.2 else 0) := by
  obtain ⟨hlook, hnd⟩ := h
  cases hl : hmLookup p.1 hm with
  | some e =>
    have hfp0 : f p.1 ≠ 0 := by
      intro h0
      have hx := hlook p.1
      rw [hl, if_pos h0] at hx
      exact Option.noConfusion hx
    have hef : e = f p.1 := by
      have hx := hlook p.1
      rw [hl, if_neg hfp0] at hx
      exact Option.some.inj hx
    simp only [Fend.insertBase, hl]
    by_cases hz : e + o * p.2 = 0
    · rw [if_pos hz]
      refine ⟨fun k => ?_, nodup_hmRemove hnd⟩
      rw [hmLookup_hmRemove]
      by_cases hpk : p.1 = k
      · subst hpk
        have h0 : f p.1 + o * p.2 = 0 := by rw [← hef]; exact hz
        simp [h0]
      · simp [hpk, hlook k]
    · rw [if_neg hz]
      refine ⟨fun k => ?_, nodup_hmSet hnd⟩
      rw [hmLookup_hmSet]
      by_cases hpk : p.1 = k
      · subst hpk
        have h1 : f p.1 + o * p.2 = e + o * p.2 := by rw [← hef]
        simp [h1, hz]
      · simp [hpk, hlook k]
  | none =>
    have hf0 : f p.1 = 0 := by
      have hx := hlook p.1
      rw [hl] at hx
      by_contra hne
      rw [if_neg hne] at hx
      exact Option.noConfusion hx
    simp only [Fend.insertBase, hl]
    by_cases hz : o * p.2 = 0
    · rw [if_pos hz]
      refine ⟨fun k => ?_, hnd⟩
      by_cases hpk : p.1 = k
      · subst hpk
        simp [hl, hf0, hz]
      · simp [hpk, hlook k]
    · rw [if_neg hz]
      have hmem : p.1 ∉ hm.map Prod.fst := (hmLookup_eq_none p.1 hm).mp hl
      refine ⟨fun k => ?_, ?_⟩
      · by_cases hpk : p.1 = k
        · subst hpk
          simp [hmLookup, hf0, hz]
        · simp [hmLookup, hpk, hlook k]
      · simpa using List.Nodup.cons (by simpa using hmem) hnd

theorem Canon.foldl_insertBase {hm : List (BaseUnit × ℚ)} {f : BaseUnit → ℚ}
    (h : Canon hm f) (o : ℚ) (l : List (BaseUnit × ℚ)) :
    Canon (l.foldl (Fend.insertBase o) hm) (fun k => f k + o * keyMass k l) := by
  induction l generalizing hm f with
  | nil => exact Canon.congr h (fun k => by simp [keyMass])
  | cons p rest ih =>
    have h2 := ih (Canon.insertBase h o p)
    rw [List.foldl_cons]
    refine Canon.congr h2 (fun k => ?_)
    simp only [keyMass, List.map_cons, List.sum_cons]
    by_cases hpk : p.1 = k
    · simp only [if_pos hpk]
      ring
    · simp only [if_neg hpk]
      ring

theorem foldl_flattenStep_none (l : List UnitExponent) :
    l.foldl flattenStep none = none := by
  induction l with
  | nil => rfl
  | cons ne rest ih => simpa [flattenStep] using ih

theorem foldl_flattenStep_spec (comps : List UnitExponent) :
    ∀ (hm0 : List (BaseUnit × ℚ)) (f0 : BaseUnit → ℚ) (s0 : ℚ),
      Canon hm0 f0 →
      ∀ (hmres : List (BaseUnit × ℚ)) (sres : ℚ),
        comps.foldl flattenStep (some (hm0, s0)) = some (hmres, sres) →
        Canon hmres
            (fun k =>
              f0 k +
                (comps.map
                  (fun ne => ne.exponent * keyMass k ne.unit.base_units)).sum) ∧
          ∃ ps, powList comps = some ps ∧ sres = s0 * ps.prod := by
  induction comps with
  | nil =>
    intro hm0 f0 s0 hc hmres sres hfold
    simp only [List.foldl_nil, Option.some.injEq, Prod.mk.injEq] at hfold
    obtain ⟨h1, h2⟩ := hfold
    subst h1; subst h2
    exact ⟨Canon.congr hc (fun k => by simp), [], rfl, by simp⟩
  | cons ne rest ih =>
    intro hm0 f0 s0 hc hmres sres hfold
    rw [List.foldl_cons] at hfold
    cases hpow : ExactBase.pow ne.unit.scale ne.exponent with
    | error e =>
      rw [show flattenStep (some (hm0, s0)) ne = none by
            simp [flattenStep, hpow]] at hfold
      rw [foldl_flattenStep_none] at hfold
      exact Option.noConfusion hfold
    | ok p =>
      rw [show flattenStep (some (hm0, s0)) ne =
            some (ne.unit.base_units.foldl (insertBase ne.exponent) hm0, s0 * p) by
            simp [flattenStep, hpow]] at hfold
      obtain ⟨hcanon, ps, hps, hs⟩ :=
        ih _ _ (s0 * p) (Canon.foldl_insertBase hc ne.exponent ne.unit.base_units) _ _ hfold
      refine ⟨Canon.congr hcanon (fun k => by simp [add_assoc]), p :: ps, ?_, ?_⟩
      · simp [powList, hpow, hps]
      · simp [hs]; ring

/-- Characterization of flattening: on success, the basis mapping is the
canonical mapping of accumulated exponents and the scale is the product of
the per-entry scale powers. -/
theorem flatten_char {u : Unit} {hm : List (BaseUnit × ℚ)} {s : ℚ}
    (h : u.into_hashmap_and_scale = some (hm, s)) :
    Canon hm u.totalExp ∧ ∃ ps, powList u.components = some ps ∧ s = ps.prod := by
  obtain ⟨hcanon, ps, hps, hs⟩ :=
    foldl_flattenStep_spec u.components [] (fun _ => 0) 1 Canon.nil hm s h
  exact ⟨Canon.congr hcanon (fun k => by simp [Unit.totalExp]), ps, hps, by simpa using hs⟩

/-! ### HashMap equality is pointwise equality of accumulated exponents -/

theorem mem_keys_iff {l : List (BaseUnit × ℚ)} {f : BaseUnit → ℚ}
    (h : Canon l f) (k : BaseUnit) : k ∈ l.map Prod.fst ↔ f k ≠ 0 := by
  constructor
  · intro hk h0
    have hx := h.1 k
    rw [if_pos h0] at hx
    exact ((hmLookup_eq_none k l).mp hx) hk
  · intro hne
    have hx := h.1 k
    rw [if_neg hne] at hx
    exact mem_keys_of_hmLookup hx

theorem hmBeq_iff {a b : List (BaseUnit × ℚ)} {fa fb : BaseUnit → ℚ}
    (ha : Canon a fa) (hb : Canon b fb) :
    hmBeq a b = true ↔ ∀ k, fa k = fb k := by
  constructor
  · intro h
    simp only [hmBeq, Bool.and_eq_true, beq_iff_eq, List.all_eq_true] at h
    obtain ⟨hlen, hall⟩ := h
    have hsub : ∀ k, k ∈ a.map Prod.fst → k ∈ b.map Prod.fst := by
      intro k hk
      obtain ⟨p, hp, rfl⟩ := List.mem_map.mp hk
      exact mem_keys_of_hmLookup (by simpa using hall p hp)
    have hset : (a.map Prod.fst).toFinset = (b.map Prod.fst).toFinset := by
      apply Finset.eq_of_subset_of_card_le
      · intro k hk
        exact List.mem_toFinset.mpr (hsub k (List.mem_toFinset.mp hk))
      · rw [List.toFinset_card_of_nodup ha.2, List.toFinset_card_of_nodup hb.2]
        simp [hlen]
    have hmemiff : ∀ k, k ∈ a.map Prod.fst ↔ k ∈ b.map Prod.fst := by
      intro k
      constructor
      · intro hk
        exact List.mem_toFinset.mp (hset ▸ List.mem_toFinset.mpr hk)
      · intro hk
        exact List.mem_toFinset.mp (hset.symm ▸ List.mem_toFinset.mpr hk)
    intro k
    by_cases h0 : fa k = 0
    · have hkb : fb k = 0 := by
        by_contra hnb
        have hkb := (hmemiff k).mpr ((mem_keys_iff hb k).mpr hnb)
        exact ((mem_keys_iff ha k).mp hkb) h0
      rw [h0, hkb]
    · have hka := (mem_keys_iff ha k).mpr h0
      obtain ⟨p, hp, hpk⟩ := List.mem_map.mp hka
      subst hpk
      have h1 : hmLookup p.1 a = some p.2 := hmLookup_of_mem_nodup ha.2 hp
      have hpa : p.2 = fa p.1 := by
        have h2 := ha.1 p.1
        rw [h1, if_neg h0] at h2
        exact Option.some.inj h2
      have h3 : hmLookup p.1 b = some p.2 := by simpa using hall p hp
      have h4 := hb.1 p.1
      by_cases hb0 : fb p.1 = 0
      · rw [if_pos hb0, h3] at h4
        exact absurd h4 (by simp)
      · rw [if_neg hb0, h3] at h4
        rw [hpa] at h4
        exact Option.some.inj h4
  · intro h
    simp only [hmBeq, Bool.and_eq_true, beq_iff_eq, List.all_eq_true]
    constructor
    · have hperm : (a.map Prod.fst).Perm (b.map Prod.fst) := by
        rw [List.perm_ext_iff_of_nodup ha.2 hb.2]
        intro k
        rw [mem_keys_iff ha k, mem_keys_iff hb k, h k]
      simpa using hperm.length_eq
    · intro p hp
      have h1 : hmLookup p.1 a = some p.2 := hmLookup_of_mem_nodup ha.2 hp
      have h2 := ha.1 p.1
      by_cases h0 : fa p.1 = 0
      · rw [if_pos h0, h1] at h2
        exact absurd h2 (by simp)
      · rw [if_neg h0, h1] at h2
        have hp2 : p.2 = fa p.1 := Option.some.inj h2
        have h4 := hb.1 p.1
        rw [← h p.1, if_neg h0, ← hp2] at h4
        simpa using h4

/-! ### Characterization of conversion and of add and sub -/

theorem try_convert_spec {u1 u2 : Unit} {hm1 hm2 : List (BaseUnit × ℚ)}
    {s1 s2 : ℚ}
    (hf1 : u1.into_hashmap_and_scale = some (hm1, s1))
    (hf2 : u2.into_hashmap_and_scale = some (hm2, s2)) (hs2 : s2 ≠ 0) :
    ((∀ k, u1.totalExp k = u2.totalExp k) →
        Unit.try_convert u1 u2 = some (.ok (s1 / s2))) ∧
      (¬(∀ k, u1.totalExp k = u2.totalExp k) →
        Unit.try_convert u1 u2 = some (.error "Units are incompatible")) := by
  have hc1 := (flatten_char hf1).1
  have hc2 := (flatten_char hf2).1
  constructor
  · intro heq
    have hbeq : hmBeq hm1 hm2 = true := (hmBeq_iff hc1 hc2).mpr heq
    simp [Unit.try_convert, hf1, hf2, hbeq, ExactBase.div, hs2]
  · intro hne
    have hbeq : hmBeq hm1 hm2 = false := by
      cases hx : hmBeq hm1 hm2
      · rfl
      · exact absurd ((hmBeq_iff hc1 hc2).mp hx) hne
    simp [Unit.try_convert, hf1, hf2, hbeq]

theorem add_spec {a b : UnitValue} {hma hmb : List (BaseUnit × ℚ)} {sa sb : ℚ}
    (hfa : a.unit.into_hashmap_and_scale = some (hma, sa))
    (hfb : b.unit.into_hashmap_and_scale = some (hmb, sb)) (hsa : sa ≠ 0) :
    ((∀ k, a.unit.totalExp k = b.unit.totalExp k) →
        a.add b = some (.ok ⟨a.value + b.value * (sb / sa), a.unit⟩)) ∧
      (¬(∀ k, a.unit.totalExp k = b.unit.totalExp k) →
        a.add b = some (.error "Units are incompatible")) := by
  have hspec := try_convert_spec hfb hfa hsa
  constructor
  · intro heq
    have h1 := hspec.1 (fun k => (heq k).symm)
    simp [UnitValue.add, h1]
  · intro hne
    have h1 := hspec.2 (fun hx => hne (fun k => (hx k).symm))
    simp [UnitValue.add, h1]

theorem sub_spec {a b : UnitValue} {hma hmb : List (BaseUnit × ℚ)} {sa sb : ℚ}
    (hfa : a.unit.into_hashmap_and_scale = some (hma, sa))
    (hfb : b.unit.into_hashmap_and_scale = some (hmb, sb)) (hsa : sa ≠ 0) :
    ((∀ k, a.unit.totalExp k = b.unit.totalExp k) →
        a.sub b = some (.ok ⟨a.value - b.value * (sb / sa), a.unit⟩)) ∧
      (¬(∀ k, a.unit.totalExp k = b.unit.totalExp k) →
        a.sub b = some (.error "Units are incompatible")) := by
  have hspec := try_convert_spec hfb hfa hsa
  constructor
  · intro heq
    have h1 := hspec.1 (fun k => (heq k).symm)
    simp [UnitValue.sub, h1]
  · intro hne
    have h1 := hspec.2 (fun hx => hne (fun k => (hx k).symm))
    simp [UnitValue.sub, h1]

theorem convert_to_spec {a t : UnitValue} {hma hmt : List (BaseUnit × ℚ)}
    {sa st : ℚ}
    (hfa : a.unit.into_hashmap_and_scale = some (hma, sa))
    (hft : t.unit.into_hashmap_and_scale = some (hmt, st)) (hst : st ≠ 0)
    (ht1 : t.value = 1) :
    ((∀ k, a.unit.totalExp k = t.unit.totalExp k) →
        a.convert_to t = some (.ok ⟨a.value * (sa / st), t.unit⟩)) ∧
      (¬(∀ k, a.unit.totalExp k = t.unit.totalExp k) →
        a.convert_to t = some (.error "Units are incompatible")) := by
  have hspec := try_convert_spec hfa hft hst
  constructor
  · intro heq
    have h1 := hspec.1 heq
    simp [UnitValue.convert_to, ht1, h1]
  · intro hne
    have h1 := hspec.2 hne
    simp [UnitValue.convert_to, ht1, h1]

theorem unit_eq_of_is_unitless {a : UnitValue} (h : a.is_unitless = true) :
    a.unit = Unit.unitless := by
  obtain ⟨v, ⟨comps⟩⟩ := a
  simp only [UnitValue.is_unitless, List.isEmpty_iff] at h
  simp [Unit.unitless, h]

/-! ### Concrete units used in examples and witnesses -/

/-- The kilogram base dimension. -/
def baseKilogram : BaseUnit := ⟨"kilogram"⟩

/-- The metre base dimension. -/
def baseMeter : BaseUnit := ⟨"meter"⟩

/-- The named unit kg: basis exponent 1 on the kilogram dimension, scale 1. -/
def kgUnit : NamedUnit := ⟨"kg", "kg", true, [(baseKilogram, 1)], 1⟩

/-- The named unit g: same basis as kg, scale 1/1000. -/
def gUnit : NamedUnit := ⟨"g", "g", true, [(baseKilogram, 1)], 1/1000⟩

/-- The named unit m: basis exponent 1 on the metre dimension, scale 1. -/
def mUnit : NamedUnit := ⟨"m", "m", true, [(baseMeter, 1)], 1⟩

/-- A pathological named unit with a negative scale; raising it to the
exponent 1/2 makes the kernel pow fail. -/
def negUnit : NamedUnit := ⟨"neg", "neg", true, [(baseMeter, 1)], -1⟩

/-- A pathological named unit with scale zero; converting between two copies
of it makes the kernel scale division fail. -/
def zeroUnit : NamedUnit := ⟨"zero", "zero", true, [(baseMeter, 1)], 0⟩

/-! ### The claims -/

/-- C3: the spec says flattening and try_convert never abort and always
propagate kernel failures as textual error values; the code instead calls
`.unwrap()` (flagged by its own "todo remove unwrap" comments) on the scale
exponentiation and on the scale division, so both abort: flattening a unit
product whose entry raises a negative scale to the exponent 1/2 panics
(modelled `none`), and so does converting between two zero-scale units. -/
theorem claim_C3 :
    Unit.into_hashmap_and_scale ⟨[⟨negUnit, 1/2⟩]⟩ = none ∧
      Unit.try_convert ⟨[⟨zeroUnit, 1⟩]⟩ ⟨[⟨zeroUnit, 1⟩]⟩ = none := by
  constructor
  · norm_num [Unit.into_hashmap_and_scale, flattenStep, insertBase, hmLookup,
      ExactBase.pow, ExactBase.intPow, Int.toNat, negUnit]
  · norm_num [Unit.try_convert, Unit.into_hashmap_and_scale, flattenStep,
      insertBase, hmLookup, hmBeq, ExactBase.pow, ExactBase.intPow,
      ExactBase.div, Int.toNat, zeroUnit]

/-- C4: whenever flattening returns a pair, its basis mapping sends each base
dimension to the sum over all entries of the entry exponent times the named
unit basis exponent for that dimension, with dimensions of accumulated
exponent exactly zero absent, and its scale is the product over all entries
of the named unit scale raised to the entry exponent. -/
theorem claim_C4 {u : Unit} {hm : List (BaseUnit × ℚ)} {s : ℚ}
    (h : u.into_hashmap_and_scale = some (hm, s)) :
    (∀ k, hmLookup k hm =
        if u.totalExp k = 0 then none else some (u.totalExp k)) ∧
      ∃ ps, powList u.components = some ps ∧ s = ps.prod :=
  ⟨(flatten_char h).1.1, (flatten_char h).2⟩

/-- Evaluation on the concrete kg unit product: its flattening. -/
theorem flatten_kg_eval :
    Unit.into_hashmap_and_scale ⟨[⟨kgUnit, 1⟩]⟩ =
      some ([(baseKilogram, 1)], 1) := by
  norm_num [Unit.into_hashmap_and_scale, flattenStep, insertBase, hmLookup,
    ExactBase.pow, ExactBase.intPow, Int.toNat, kgUnit]

/-- Evaluation on the concrete g unit product: its flattening. -/
theorem flatten_g_eval :
    Unit.into_hashmap_and_scale ⟨[⟨gUnit, 1⟩]⟩ =
      some ([(baseKilogram, 1)], 1 / 1000) := by
  norm_num [Unit.into_hashmap_and_scale, flattenStep, insertBase, hmLookup,
    ExactBase.pow, ExactBase.intPow, Int.toNat, gUnit]

theorem claim_C4_witness :
    Unit.into_hashmap_and_scale ⟨[⟨kgUnit, 1⟩]⟩ = some ([(baseKilogram, 1)], 1) ∧
      ((∀ k, hmLookup k [(baseKilogram, 1)] =
          if Unit.totalExp ⟨[⟨kgUnit, 1⟩]⟩ k = 0 then none
          else some (Unit.totalExp ⟨[⟨kgUnit, 1⟩]⟩ k)) ∧
        ∃ ps, powList [⟨kgUnit, 1⟩] = some ps ∧ (1 : ℚ) = ps.prod) :=
  ⟨flatten_kg_eval, claim_C4 flatten_kg_eval⟩

/-- C5: multiplication multiplies the values and concatenates the unit
products unreduced, left entries first; division divides the values, failing
exactly when the divisor value is zero, and concatenates with the right
entries negated; in particular (1 m) / (1 m) keeps two entries. -/
theorem claim_C5 (a b : UnitValue) :
    (a.mul b).value = a.value * b.value ∧
      (a.mul b).unit.components = a.unit.components ++ b.unit.components ∧
      (b.value = 0 → a.div b = .error "Attempt to divide by zero") ∧
      (b.value ≠ 0 →
        a.div b = .ok ⟨a.value / b.value,
          ⟨a.unit.components ++
            b.unit.components.map (fun c => ⟨c.unit, -c.exponent⟩)⟩⟩) ∧
      UnitValue.div ⟨1, ⟨[⟨mUnit, 1⟩]⟩⟩ ⟨1, ⟨[⟨mUnit, 1⟩]⟩⟩ =
        .ok ⟨1, ⟨[⟨mUnit, 1⟩, ⟨mUnit, -1⟩]⟩⟩ := by
  refine ⟨rfl, rfl, ?_, ?_, by norm_num [UnitValue.div, ExactBase.div]⟩
  · intro h0
    simp [UnitValue.div, ExactBase.div, h0]
  · intro h0
    simp [UnitValue.div, ExactBase.div, h0]

theorem claim_C5_witness :
    ((2 : ℚ) ≠ 0) ∧
      UnitValue.div ⟨6, ⟨[]⟩⟩ ⟨2, ⟨[]⟩⟩ =
        .ok ⟨(6 : ℚ) / 2,
          ⟨([] : List UnitExponent) ++
            (([] : List UnitExponent).map (fun c => ⟨c.unit, -c.exponent⟩))⟩⟩ :=
  ⟨by norm_num, (claim_C5 ⟨6, ⟨[]⟩⟩ ⟨2, ⟨[]⟩⟩).2.2.2.1 (by norm_num)⟩

/-- C1 counterexample: for a unitless left operand and a right operand whose
unit raises a negative scale to the exponent 1/2, the flattened bases differ
(1/2 vs 0 on the metre dimension), yet add panics on the unwrapped scale
exponentiation (`none`) instead of returning the incompatible-units error. -/
theorem claim_C1_cex :
    Unit.totalExp ⟨[⟨negUnit, 1/2⟩]⟩ baseMeter = 1/2 ∧
      Unit.totalExp Unit.unitless baseMeter = 0 ∧
      UnitValue.add ⟨1, Unit.unitless⟩ ⟨1, ⟨[⟨negUnit, 1/2⟩]⟩⟩ = none := by
  refine ⟨?_, ?_, ?_⟩
  · norm_num [Unit.totalExp, keyMass, negUnit]
  · norm_num [Unit.totalExp, Unit.unitless]
  · norm_num [UnitValue.add, Unit.try_convert, Unit.unitless,
      Unit.into_hashmap_and_scale, flattenStep, insertBase, hmLookup,
      ExactBase.pow, ExactBase.intPow, Int.toNat, negUnit]

/-- C1 (amended): provided both operands' unit products flatten successfully
and the left operand's flattened scale is nonzero, add (and likewise sub)
returns the incompatible-units error iff the flattened basis mappings
differ; on success the result carries exactly the left operand's unit
product and its value is a.value plus (minus) b.value times the ratio of
b's flattened scale to a's flattened scale. -/
theorem claim_C1 {a b : UnitValue} {hma hmb : List (BaseUnit × ℚ)} {sa sb : ℚ}
    (hfa : a.unit.into_hashmap_and_scale = some (hma, sa))
    (hfb : b.unit.into_hashmap_and_scale = some (hmb, sb)) (hsa : sa ≠ 0) :
    ((a.add b = some (.error "Units are incompatible") ↔
        ¬∀ k, a.unit.totalExp k = b.unit.totalExp k) ∧
      (a.sub b = some (.error "Units are incompatible") ↔
        ¬∀ k, a.unit.totalExp k = b.unit.totalExp k)) ∧
      ((∀ k, a.unit.totalExp k = b.unit.totalExp k) →
        a.add b = some (.ok ⟨a.value + b.value * (sb / sa), a.unit⟩) ∧
          a.sub b = some (.ok ⟨a.value - b.value * (sb / sa), a.unit⟩)) := by
  have hA := add_spec hfa hfb hsa
  have hS := sub_spec hfa hfb hsa
  by_cases heq : ∀ k, a.unit.totalExp k = b.unit.totalExp k
  · exact ⟨⟨iff_of_false (by simp [hA.1 heq]) (not_not_intro heq),
        iff_of_false (by simp [hS.1 heq]) (not_not_intro heq)⟩,
      fun _ => ⟨hA.1 heq, hS.1 heq⟩⟩
  · exact ⟨⟨iff_of_true (hA.2 heq) heq, iff_of_true (hS.2 heq) heq⟩,
      fun hx => absurd hx heq⟩

theorem claim_C1_witness :
    Unit.into_hashmap_and_scale ⟨[⟨kgUnit, 1⟩]⟩ = some ([(baseKilogram, 1)], 1) ∧
      (1 : ℚ) ≠ 0 ∧
      (UnitValue.add ⟨1, ⟨[⟨kgUnit, 1⟩]⟩⟩ ⟨2, ⟨[⟨kgUnit, 1⟩]⟩⟩ =
          some (.ok ⟨1 + 2 * ((1 : ℚ) / 1), ⟨[⟨kgUnit, 1⟩]⟩⟩) ∧
        UnitValue.sub ⟨1, ⟨[⟨kgUnit, 1⟩]⟩⟩ ⟨2, ⟨[⟨kgUnit, 1⟩]⟩⟩ =
          some (.ok ⟨1 - 2 * ((1 : ℚ) / 1), ⟨[⟨kgUnit, 1⟩]⟩⟩)) :=
  ⟨flatten_kg_eval, by norm_num,
    (@claim_C1 ⟨1, ⟨[⟨kgUnit, 1⟩]⟩⟩ ⟨2, ⟨[⟨kgUnit, 1⟩]⟩⟩ [(baseKilogram, 1)]
        [(baseKilogram, 1)] 1 1 flatten_kg_eval flatten_kg_eval
        (by norm_num)).2 (fun k => rfl)⟩

/-- C2 counterexample: both operands are syntactically unitless, yet pow
fails, because the kernel cannot represent (-1) raised to 1/2; so success is
not equivalent to both surface unit products being empty. -/
theorem claim_C2_cex :
    UnitValue.is_unitless ⟨-1, Unit.unitless⟩ = true ∧
      UnitValue.is_unitless ⟨1/2, Unit.unitless⟩ = true ∧
      UnitValue.pow ⟨-1, Unit.unitless⟩ ⟨1/2, Unit.unitless⟩ =
        .error "Roots of negative numbers are not supported" := by
  refine ⟨rfl, rfl, ?_⟩
  norm_num [UnitValue.pow, UnitValue.is_unitless, Unit.unitless, ExactBase.pow]

/-- C2 (amended): pow and root_n reject any operand pair in which either
surface unit product is nonempty, with the dedicated error message; when
both are empty they return exactly what the kernel power (resp. root)
returns, a dimensionless result on kernel success; and the test being
syntactic, the two-entry dimensionally-unitless result of (1 m) / (1 m) is
rejected by both. -/
theorem claim_C2 (a b : UnitValue) :
    ((!a.is_unitless || !b.is_unitless) = true →
        a.pow b =
            .error "Exponents are currently only supported for unitless numbers." ∧
          a.root_n b =
            .error "Roots are currently only supported for unitless numbers.") ∧
      (a.is_unitless = true → b.is_unitless = true →
        (∀ v, ExactBase.pow a.value b.value = .ok v →
          a.pow b = .ok ⟨v, Unit.unitless⟩) ∧
        (∀ e, ExactBase.pow a.value b.value = .error e → a.pow b = .error e) ∧
        (∀ v, ExactBase.root_n a.value b.value = .ok v →
          a.root_n b = .ok ⟨v, Unit.unitless⟩) ∧
        (∀ e, ExactBase.root_n a.value b.value = .error e →
          a.root_n b = .error e)) ∧
      (UnitValue.is_unitless ⟨1, ⟨[⟨mUnit, 1⟩, ⟨mUnit, -1⟩]⟩⟩ = false ∧
        (∀ k, Unit.totalExp ⟨[⟨mUnit, 1⟩, ⟨mUnit, -1⟩]⟩ k = 0) ∧
        UnitValue.pow ⟨1, ⟨[⟨mUnit, 1⟩, ⟨mUnit, -1⟩]⟩⟩ ⟨2, Unit.unitless⟩ =
          .error "Exponents are currently only supported for unitless numbers." ∧
        UnitValue.root_n ⟨1, ⟨[⟨mUnit, 1⟩, ⟨mUnit, -1⟩]⟩⟩ ⟨2, Unit.unitless⟩ =
          .error "Roots are currently only supported for unitless numbers.") := by
  refine ⟨?_, ?_, rfl, ?_, rfl, rfl⟩
  · intro h
    constructor
    · simp [UnitValue.pow, h]
    · simp [UnitValue.root_n, h]
  · intro ha hb
    have hu : a.unit = Unit.unitless := unit_eq_of_is_unitless ha
    refine ⟨?_, ?_, ?_, ?_⟩
    · intro v hv
      simp [UnitValue.pow, ha, hb, hv, hu]
    · intro e he
      simp [UnitValue.pow, ha, hb, he]
    · intro v hv
      simp [UnitValue.root_n, ha, hb, hv, hu]
    · intro e he
      simp [UnitValue.root_n, ha, hb, he]
  · intro k
    simp only [Unit.totalExp, List.map_cons, List.map_nil, List.sum_cons,
      List.sum_nil]
    ring

theorem claim_C2_witness :
    UnitValue.is_unitless ⟨2, Unit.unitless⟩ = true ∧
      UnitValue.is_unitless ⟨3, Unit.unitless⟩ = true ∧
      ExactBase.pow (2 : ℚ) (3 : ℚ) = .ok 8 ∧
      UnitValue.pow ⟨2, Unit.unitless⟩ ⟨3, Unit.unitless⟩ =
        .ok ⟨8, Unit.unitless⟩ := by
  have hpow : ExactBase.pow (2 : ℚ) (3 : ℚ) = .ok 8 := by
    norm_num [ExactBase.pow, ExactBase.intPow, Int.toNat]
  exact ⟨rfl, rfl, hpow,
    ((claim_C2 ⟨2, Unit.unitless⟩ ⟨3, Unit.unitless⟩).2.1 rfl rfl).1 8 hpow⟩

/-- C6 counterexample: with a target carrying the numeric value 1 whose unit
raises a negative scale to 1/2, the flattened bases differ, yet convert_to
panics on the unwrapped scale exponentiation (`none`) instead of failing
with the incompatible-units error. -/
theorem claim_C6_cex :
    (⟨1, ⟨[⟨negUnit, 1/2⟩]⟩⟩ : UnitValue).value = 1 ∧
      Unit.totalExp ⟨[⟨negUnit, 1/2⟩]⟩ baseMeter ≠
        Unit.totalExp Unit.unitless baseMeter ∧
      UnitValue.convert_to ⟨5, Unit.unitless⟩ ⟨1, ⟨[⟨negUnit, 1/2⟩]⟩⟩ = none := by
  refine ⟨rfl, ?_, ?_⟩
  · norm_num [Unit.totalExp, keyMass, negUnit, Unit.unitless]
  · norm_num [UnitValue.convert_to, Unit.try_convert, Unit.unitless,
      Unit.into_hashmap_and_scale, flattenStep, insertBase, hmLookup,
      ExactBase.pow, ExactBase.intPow, Int.toNat, negUnit]

/-- C6 (amended): convert_to fails with the dedicated error whenever the
target's numeric value is not exactly 1, unconditionally (the value is
checked before any flattening); when it is 1, provided both unit products
flatten successfully and the target's flattened scale is nonzero, it
returns the incompatible-units error iff the flattened bases differ and
otherwise succeeds with exactly the target's unit product and the value
a.value times the ratio of a's flattened scale to the target's. -/
theorem claim_C6 (a t : UnitValue) :
    (t.value ≠ 1 →
        a.convert_to t =
          some (.error "Right-hand side of unit conversion has a numerical value")) ∧
      (∀ (hma hmt : List (BaseUnit × ℚ)) (sa st : ℚ),
        a.unit.into_hashmap_and_scale = some (hma, sa) →
        t.unit.into_hashmap_and_scale = some (hmt, st) →
        st ≠ 0 → t.value = 1 →
        (a.convert_to t = some (.error "Units are incompatible") ↔
            ¬∀ k, a.unit.totalExp k = t.unit.totalExp k) ∧
          ((∀ k, a.unit.totalExp k = t.unit.totalExp k) →
            a.convert_to t = some (.ok ⟨a.value * (sa / st), t.unit⟩))) := by
  constructor
  · intro h1
    simp [UnitValue.convert_to, h1]
  · intro hma hmt sa st hfa hft hst ht1
    have hspec := convert_to_spec hfa hft hst ht1
    by_cases heq : ∀ k, a.unit.totalExp k = t.unit.totalExp k
    · exact ⟨iff_of_false (by simp [hspec.1 heq]) (not_not_intro heq),
        fun _ => hspec.1 heq⟩
    · exact ⟨iff_of_true (hspec.2 heq) heq, fun hx => absurd hx heq⟩

theorem claim_C6_witness :
    ((2 : ℚ) ≠ 1) ∧
      UnitValue.convert_to ⟨5, ⟨[⟨kgUnit, 1⟩]⟩⟩ ⟨2, ⟨[⟨gUnit, 1⟩]⟩⟩ =
        some (.error "Right-hand side of unit conversion has a numerical value") ∧
      Unit.into_hashmap_and_scale ⟨[⟨kgUnit, 1⟩]⟩ = some ([(baseKilogram, 1)], 1) ∧
      Unit.into_hashmap_and_scale ⟨[⟨gUnit, 1⟩]⟩ =
        some ([(baseKilogram, 1)], 1 / 1000) ∧
      ((1 : ℚ) / 1000 ≠ 0) ∧
      ((∀ k, Unit.totalExp ⟨[⟨kgUnit, 1⟩]⟩ k =
          Unit.totalExp ⟨[⟨gUnit, 1⟩]⟩ k) →
        UnitValue.convert_to ⟨2, ⟨[⟨kgUnit, 1⟩]⟩⟩ ⟨1, ⟨[⟨gUnit, 1⟩]⟩⟩ =
          some (.ok ⟨2 * ((1 : ℚ) / (1 / 1000)), ⟨[⟨gUnit, 1⟩]⟩⟩)) :=
  ⟨by norm_num,
    (claim_C6 ⟨5, ⟨[⟨kgUnit, 1⟩]⟩⟩ ⟨2, ⟨[⟨gUnit, 1⟩]⟩⟩).1 (by norm_num),
    flatten_kg_eval, flatten_g_eval, by norm_num,
    ((claim_C6 ⟨2, ⟨[⟨kgUnit, 1⟩]⟩⟩ ⟨1, ⟨[⟨gUnit, 1⟩]⟩⟩).2 [(baseKilogram, 1)]
        [(baseKilogram, 1)] 1 (1 / 1000) flatten_kg_eval flatten_g_eval
        (by norm_num) rfl).2⟩

/-- C7: for quantities with equal flattened bases (and computable nonzero
flattened scales), add(a, b) and add(b, a) keep their respective left
operand's unit products but become numerically equal once both are
converted to one common compatible value-1 target. -/
theorem claim_C7 {a b c : UnitValue} {hma hmb hmc : List (BaseUnit × ℚ)}
    {sa sb sc : ℚ}
    (hfa : a.unit.into_hashmap_and_scale = some (hma, sa))
    (hfb : b.unit.into_hashmap_and_scale = some (hmb, sb))
    (hfc : c.unit.into_hashmap_and_scale = some (hmc, sc))
    (hsa : sa ≠ 0) (hsb : sb ≠ 0) (hsc : sc ≠ 0)
    (hab : ∀ k, a.unit.totalExp k = b.unit.totalExp k)
    (hac : ∀ k, a.unit.totalExp k = c.unit.totalExp k)
    (hc1 : c.value = 1) :
    ∃ r1 r2 : UnitValue,
      a.add b = some (.ok r1) ∧ b.add a = some (.ok r2) ∧
        r1.unit = a.unit ∧ r2.unit = b.unit ∧
        ∃ v, r1.convert_to c = some (.ok ⟨v, c.unit⟩) ∧
          r2.convert_to c = some (.ok ⟨v, c.unit⟩) := by
  have h1 := (add_spec hfa hfb hsa).1 hab
  have h2 := (add_spec hfb hfa hsb).1 (fun k => (hab k).symm)
  refine ⟨_, _, h1, h2, rfl, rfl, ?_⟩
  have hcv1 :=
    (@convert_to_spec ⟨a.value + b.value * (sb / sa), a.unit⟩ c hma hmc sa sc
        hfa hfc hsc hc1).1 hac
  have hcv2 :=
    (@convert_to_spec ⟨b.value + a.value * (sa / sb), b.unit⟩ c hmb hmc sb sc
        hfb hfc hsc hc1).1 (fun k => (hab k).symm.trans (hac k))
  refine ⟨(a.value * sa + b.value * sb) / sc, ?_, ?_⟩
  · rw [hcv1]
    have hval : (a.value + b.value * (sb / sa)) * (sa / sc) =
        (a.value * sa + b.value * sb) / sc := by
      field_simp
    rw [hval]
  · rw [hcv2]
    have hval : (b.value + a.value * (sa / sb)) * (sb / sc) =
        (a.value * sa + b.value * sb) / sc := by
      field_simp
      ring
    rw [hval]

theorem claim_C7_witness :
    Unit.into_hashmap_and_scale ⟨[⟨kgUnit, 1⟩]⟩ = some ([(baseKilogram, 1)], 1) ∧
      Unit.into_hashmap_and_scale ⟨[⟨gUnit, 1⟩]⟩ =
        some ([(baseKilogram, 1)], 1 / 1000) ∧
      ((1 : ℚ) ≠ 0) ∧ ((1 : ℚ) / 1000 ≠ 0) ∧
      (∃ r1 r2 : UnitValue,
        UnitValue.add ⟨1, ⟨[⟨kgUnit, 1⟩]⟩⟩ ⟨12, ⟨[⟨gUnit, 1⟩]⟩⟩ =
            some (.ok r1) ∧
          UnitValue.add ⟨12, ⟨[⟨gUnit, 1⟩]⟩⟩ ⟨1, ⟨[⟨kgUnit, 1⟩]⟩⟩ =
            some (.ok r2) ∧
          r1.unit = (⟨1, ⟨[⟨kgUnit, 1⟩]⟩⟩ : UnitValue).unit ∧
          r2.unit = (⟨12, ⟨[⟨gUnit, 1⟩]⟩⟩ : UnitValue).unit ∧
          ∃ v, r1.convert_to ⟨1, ⟨[⟨gUnit, 1⟩]⟩⟩ =
              some (.ok ⟨v, (⟨1, ⟨[⟨gUnit, 1⟩]⟩⟩ : UnitValue).unit⟩) ∧
            r2.convert_to ⟨1, ⟨[⟨gUnit, 1⟩]⟩⟩ =
              some (.ok ⟨v, (⟨1, ⟨[⟨gUnit, 1⟩]⟩⟩ : UnitValue).unit⟩)) :=
  ⟨flatten_kg_eval, flatten_g_eval, by norm_num, by norm_num,
    @claim_C7 ⟨1, ⟨[⟨kgUnit, 1⟩]⟩⟩ ⟨12, ⟨[⟨gUnit, 1⟩]⟩⟩ ⟨1, ⟨[⟨gUnit, 1⟩]⟩⟩
      [(baseKilogram, 1)] [(baseKilogram, 1)] [(baseKilogram, 1)]
      1 (1 / 1000) (1 / 1000) flatten_kg_eval flatten_g_eval flatten_g_eval
      (by norm_num) (by norm_num) (by norm_num)
      (fun k => rfl) (fun k => rfl) rfl⟩

/-! ### The parser (src/core/src/parser.rs) -/

/-- The symbols the lexer can hand to the parser. -/
inductive Symbol
  | OpenParens
  | CloseParens
  | Add
  | Sub
  | Mul
  | Div
  | Pow
  | ArrowConversion
deriving DecidableEq

/-- A token: numeric literal, identifier, or symbol. The numeric payload is
opaque to the parser. -/
inductive Token
  | Num (n : ℚ)
  | Ident (name : String)
  | Symbol (sym : Fend.Symbol)
deriving DecidableEq

/-- The abstract syntax tree built by the parser. -/
inductive Expr
  | Num (n : ℚ)
  | Ident (name : String)
  | Parens (e : Expr)
  | UnaryMinus (e : Expr)
  | UnaryPlus (e : Expr)
  | Add (a b : Expr)
  | Sub (a b : Expr)
  | Mul (a b : Expr)
  | Div (a b : Expr)
  | Pow (a b : Expr)
  | Apply (a b : Expr)
  | ApplyFunctionCall (a b : Expr)
  | ApplyMul (a b : Expr)
  | As (a b : Expr)
deriving DecidableEq

/-- Result of a parser: the parsed value and the remaining tokens. -/
abbrev ParseResult (α : Type) := Except String (α × List Token)

/-- Pop a single token. -/
def parse_token (input : List Token) : ParseResult Token :=
  match input with
  | [] => .error "Expected a token"
  | t :: rest => .ok (t, rest)

/-- Require one specific symbol. -/
def parse_fixed_symbol (input : List Token) (symbol : Symbol) : ParseResult PUnit :=
  match parse_token input with
  | .error e => .error e
  | .ok (.Symbol sym, remaining) =>
    if sym = symbol then .ok (.unit, remaining)
    else .error "Found a different symbol from the expected one"
  | .ok (_, _) => .error "Found an invalid token while expecting a symbol"

/-- A numeric literal. -/
def parse_number (input : List Token) : ParseResult Expr :=
  match parse_token input with
  | .ok (.Num num, remaining) => .ok (.Num num, remaining)
  | _ => .error "Expected a number"

/-- An identifier. -/
def parse_ident (input : List Token) : ParseResult Expr :=
  match parse_token input with
  | .ok (.Ident ident, remaining) => .ok (.Ident ident, remaining)
  | _ => .error "Expected an identifier"

/-- The shape-directed fold of `parse_apply`: `none` means stop folding and
return what has been built so far, leaving the term for a later layer. -/
def applyCombine (res term : Expr) : Option Expr :=
  match res, term with
  | .Num _, .Num _ => none
  | .ApplyMul _ _, .Num _ => none
  | _, .Num _ => some (.ApplyFunctionCall res term)
  | .Num _, _ => some (.ApplyMul res term)
  | .ApplyMul _ _, _ => some (.ApplyMul res term)
  | _, _ => some (.Apply res term)

/-- The shape match of `parse_compound_fraction` on the two speculatively
parsed multiplicative terms: `some` is the combined node, `none` rejects the
second term. -/
def cfCombine (res rhs : Expr) : Option Expr :=
  match res, rhs with
  | .Num _, .Div (.Num _) (.Num _) => some (.Add res rhs)
  | .UnaryMinus (.Num _), .Div (.Num _) (.Num _) => some (.Sub res rhs)
  | .ApplyMul _ _, .ApplyMul _ _ => some (.Add res rhs)
  | _, _ => none

/-- Identifies one production of the recursive-descent grammar, carrying the
accumulated left operand for the folding loops. -/
inductive PId
  | parens
  | parensOrLiteral
  | applyLoop (res : Expr)
  | apply
  | powerCont
  | power
  | mulCont
  | divCont
  | mulLoop (res : Expr)
  | multiplicative
  | compoundFraction
  | addCont
  | subCont
  | addLoop (res : Expr)
  | additive
  | arrowCont
  | arrowLoop (res : Expr)
  | arrow
deriving DecidableEq

/-- The mutually recursive productions of the parser, driven by a fuel
counter decremented at every inner call; the Rust functions recurse
directly, and for sufficient fuel the interpreter never runs out (proved
below), so the fuel is an artifact of the embedding only. `none` is the
out-of-fuel marker. -/
def parseStep : ℕ → PId → List Token → Option (ParseResult Expr)
  | 0, _, _ => none
  | fuel + 1, pid, input =>
    match pid with
    | .parens =>
      match parse_fixed_symbol input .OpenParens with
      | .error e => some (.error e)
      | .ok (_, input1) =>
        match parseStep fuel .arrow input1 with
        | none => none
        | some (.error e) => some (.error e)
        | some (.ok (inner, input2)) =>
          match parse_fixed_symbol input2 .CloseParens with
          | .error e => some (.error e)
          | .ok (_, input3) => some (.ok (.Parens inner, input3))
    | .parensOrLiteral =>
      match parse_token input with
      | .error e => some (.error e)
      | .ok (.Num _, _) => some (parse_number input)
      | .ok (.Ident _, _) => some (parse_ident input)
      | .ok (.Symbol .OpenParens, _) => parseStep fuel .parens input
      | .ok (_, _) =>
        some (.error "Expected a number, an identifier or an open parenthesis")
    | .apply =>
      match parseStep fuel .parensOrLiteral input with
      | none => none
      | some (.error e) => some (.error e)
      | some (.ok (res, remaining)) => parseStep fuel (.applyLoop res) remaining
    | .applyLoop res =>
      match parseStep fuel .parensOrLiteral input with
      | none => none
      | some (.error _) => some (.ok (res, input))
      | some (.ok (term, remaining)) =>
        match applyCombine res term with
        | none => some (.ok (res, input))
        | some res2 => parseStep fuel (.applyLoop res2) remaining
    | .powerCont =>
      match parse_fixed_symbol input .Pow with
      | .error _ => some (.error "Expected ^ or **")
      | .ok (_, remaining) => parseStep fuel .power remaining
    | .power =>
      match parse_fixed_symbol input .Sub with
      | .ok (_, remaining) =>
        (match parseStep fuel .power remaining with
          | none => none
          | some (.error e) => some (.error e)
          | some (.ok (res, remaining2)) =>
            some (.ok (.UnaryMinus res, remaining2)))
      | .error _ =>
        match parse_fixed_symbol input .Add with
        | .ok (_, remaining) =>
          (match parseStep fuel .power remaining with
            | none => none
            | some (.error e) => some (.error e)
            | some (.ok (res, remaining2)) =>
              some (.ok (.UnaryPlus res, remaining2)))
        | .error _ =>
          match parseStep fuel .apply input with
          | none => none
          | some (.error e) => some (.error e)
          | some (.ok (res, rest)) =>
            match parseStep fuel .powerCont rest with
            | none => none
            | some (.error _) => some (.ok (res, rest))
            | some (.ok (term, remaining)) =>
              some (.ok (.Pow res term, remaining))
    | .mulCont =>
      match parse_fixed_symbol input .Mul with
      | .error e => some (.error e)
      | .ok (_, input1) => parseStep fuel .power input1
    | .divCont =>
      match parse_fixed_symbol input .Div with
      | .error e => some (.error e)
      | .ok (_, input1) => parseStep fuel .power input1
    | .mulLoop res =>
      match parseStep fuel .mulCont input with
      | none => none
      | some (.ok (term, remaining)) =>
        parseStep fuel (.mulLoop (.Mul res term)) remaining
      | some (.error _) =>
        match parseStep fuel .divCont input with
        | none => none
        | some (.ok (term, remaining)) =>
          parseStep fuel (.mulLoop (.Div res term)) remaining
        | some (.error _) => some (.ok (res, input))
    | .multiplicative =>
      match parseStep fuel .power input with
      | none => none
      | some (.error e) => some (.error e)
      | some (.ok (res, remaining)) => parseStep fuel (.mulLoop res) remaining
    | .compoundFraction =>
      match parseStep fuel .multiplicative input with
      | none => none
      | some (.error e) => some (.error e)
      | some (.ok (res, input1)) =>
        match parseStep fuel .multiplicative input1 with
        | none => none
        | some (.error _) => some (.ok (res, input1))
        | some (.ok (rhs, remaining)) =>
          match cfCombine res rhs with
          | some combined => some (.ok (combined, remaining))
          | none => some (.ok (res, input1))
    | .addCont =>
      match parse_fixed_symbol input .Add with
      | .error e => some (.error e)
      | .ok (_, input1) => parseStep fuel .compoundFraction input1
    | .subCont =>
      match parse_fixed_symbol input .Sub with
      | .error e => some (.error e)
      | .ok (_, input1) => parseStep fuel .compoundFraction input1
    | .addLoop res =>
      match parseStep fuel .addCont input with
      | none => none
      | some (.ok (term, remaining)) =>
        parseStep fuel (.addLoop (.Add res term)) remaining
      | some (.error _) =>
        match parseStep fuel .subCont input with
        | none => none
        | some (.ok (term, remaining)) =>
          parseStep fuel (.addLoop (.Sub res term)) remaining
        | some (.error _) => some (.ok (res, input))
    | .additive =>
      match parseStep fuel .compoundFraction input with
      | none => none
      | some (.error e) => some (.error e)
      | some (.ok (res, remaining)) => parseStep fuel (.addLoop res) remaining
    | .arrowCont =>
      match parse_fixed_symbol input .ArrowConversion with
      | .error e => some (.error e)
      | .ok (_, input1) => parseStep fuel .additive input1
    | .arrowLoop res =>
      match parseStep fuel .arrowCont input with
      | none => none
      | some (.ok (term, remaining)) =>
        parseStep fuel (.arrowLoop (.As res term)) remaining
      | some (.error _) => some (.ok (res, input))
    | .arrow =>
      match parseStep fuel .additive input with
      | none => none
      | some (.error e) => some (.error e)
      | some (.ok (res, remaining)) => parseStep fuel (.arrowLoop res) remaining

/-- Parse a parenthesized expression. -/
def parse_parens (fuel : ℕ) (input : List Token) := parseStep fuel .parens input

/-- Parse an atom: number, identifier or parenthesized expression. -/
def parse_parens_or_literal (fuel : ℕ) (input : List Token) :=
  parseStep fuel .parensOrLiteral input

/-- Parse the apply level. -/
def parse_apply (fuel : ℕ) (input : List Token) := parseStep fuel .apply input

/-- Parse an exponentiation continuation. -/
def parse_power_cont (fuel : ℕ) (input : List Token) :=
  parseStep fuel .powerCont input

/-- Parse the power level. -/
def parse_power (fuel : ℕ) (input : List Token) := parseStep fuel .power input

/-- Parse the multiplicative level. -/
def parse_multiplicative (fuel : ℕ) (input : List Token) :=
  parseStep fuel .multiplicative input

/-- Parse the compound-fraction level. -/
def parse_compound_fraction (fuel : ℕ) (input : List Token) :=
  parseStep fuel .compoundFraction input

/-- Parse the additive level. -/
def parse_additive (fuel : ℕ) (input : List Token) :=
  parseStep fuel .additive input

/-- Parse the arrow-conversion level. -/
def parse_arrow_conversion (fuel : ℕ) (input : List Token) :=
  parseStep fuel .arrow input

/-- Parse a whole expression (the arrow-conversion level). -/
def parse_expression (fuel : ℕ) (input : List Token) :=
  parseStep fuel .arrow input

/-! ### Consumption discipline of the parser -/

/-- Whether a production consumes at least one token whenever it succeeds
(true for everything except the four folding loops, which may fold zero
times). -/
def PId.strict : PId → Bool
  | .applyLoop _ => false
  | .mulLoop _ => false
  | .addLoop _ => false
  | .arrowLoop _ => false
  | _ => true

theorem parse_token_ok {input : List Token} {t : Token} {rest : List Token}
    (h : parse_token input = .ok (t, rest)) : input = t :: rest := by
  cases input with
  | nil => simp [parse_token] at h
  | cons a l =>
    simp only [parse_token, Except.ok.injEq, Prod.mk.injEq] at h
    rw [h.1, h.2]

theorem parse_fixed_symbol_ok {input : List Token} {s : Symbol} {u : PUnit}
    {rest : List Token} (h : parse_fixed_symbol input s = .ok (u, rest)) :
    input = Token.Symbol s :: rest := by
  cases input with
  | nil => simp [parse_fixed_symbol, parse_token] at h
  | cons a l =>
    cases a with
    | Num n => simp [parse_fixed_symbol, parse_token] at h
    | Ident i => simp [parse_fixed_symbol, parse_token] at h
    | Symbol sym =>
      by_cases hs : sym = s
      · subst hs
        simp [parse_fixed_symbol, parse_token] at h
        rw [h]
      · simp [parse_fixed_symbol, parse_token, hs] at h

theorem parse_fixed_symbol_shape {input : List Token} {s : Symbol} {u : PUnit}
    {rest : List Token} (h : parse_fixed_symbol input s = .ok (u, rest)) :
    rest.IsSuffix input ∧ rest.length < input.length := by
  rw [parse_fixed_symbol_ok h]
  exact ⟨List.suffix_cons _ _, by simp⟩

theorem parse_number_shape {input : List Token} {e : Expr} {rest : List Token}
    (h : parse_number input = .ok (e, rest)) :
    rest.IsSuffix input ∧ rest.length < input.length := by
  cases input with
  | nil => simp [parse_number, parse_token] at h
  | cons t l =>
    cases t with
    | Num n =>
      simp only [parse_number, parse_token, Except.ok.injEq,
        Prod.mk.injEq] at h
      rw [← h.2]
      exact ⟨List.suffix_cons _ _, by simp⟩
    | Ident i => simp [parse_number, parse_token] at h
    | Symbol sym => simp [parse_number, parse_token] at h

theorem parse_ident_shape {input : List Token} {e : Expr} {rest : List Token}
    (h : parse_ident input = .ok (e, rest)) :
    rest.IsSuffix input ∧ rest.length < input.length := by
  cases input with
  | nil => simp [parse_ident, parse_token] at h
  | cons t l =>
    cases t with
    | Num n => simp [parse_ident, parse_token] at h
    | Ident i =>
      simp only [parse_ident, parse_token, Except.ok.injEq,
        Prod.mk.injEq] at h
      rw [← h.2]
      exact ⟨List.suffix_cons _ _, by simp⟩
    | Symbol sym => simp [parse_ident, parse_token] at h

/-- On success every production returns a suffix of its input, and every
production other than the four folding loops consumes at least one token. -/
def SuffixProp (fuel : ℕ) : Prop :=
  ∀ (pid : PId) (input : List Token) (e : Expr) (rest : List Token),
    parseStep fuel pid input = some (.ok (e, rest)) →
    rest.IsSuffix input ∧ (PId.strict pid = true → rest.length < input.length)

theorem suffixProp_step (fuel : ℕ) (ih : SuffixProp fuel) :
    SuffixProp (fuel + 1) := by
  intro pid input e rest h
  cases pid with
  | parens =>
    simp only [parseStep] at h
    split at h
    next e1 heq1 => simp at h
    next u1 input1 heq1 =>
      split at h
      next heq2 => simp at h
      next e2 heq2 => simp at h
      next inner input2 heq2 =>
        split at h
        next e3 heq3 => simp at h
        next u3 input3 heq3 =>
          simp only [Option.some.injEq, Except.ok.injEq, Prod.mk.injEq] at h
          obtain ⟨-, hrest⟩ := h
          subst hrest
          have s1 := parse_fixed_symbol_shape heq1
          have s2 := ih .arrow input1 inner input2 heq2
          have s3 := parse_fixed_symbol_shape heq3
          refine ⟨s3.1.trans (s2.1.trans s1.1), fun _ => ?_⟩
          have h21 := s2.1.length_le
          omega
  | parensOrLiteral =>
    cases input with
    | nil => simp [parseStep, parse_token] at h
    | cons t l =>
      cases t with
      | Num n =>
        have h2 : parse_number (Token.Num n :: l) = .ok (e, rest) := by
          have h3 : some (parse_number (Token.Num n :: l)) =
              some (.ok (e, rest)) := h
          exact Option.some.inj h3
        have s := parse_number_shape h2
        exact ⟨s.1, fun _ => s.2⟩
      | Ident i =>
        have h2 : parse_ident (Token.Ident i :: l) = .ok (e, rest) := by
          have h3 : some (parse_ident (Token.Ident i :: l)) =
              some (.ok (e, rest)) := h
          exact Option.some.inj h3
        have s := parse_ident_shape h2
        exact ⟨s.1, fun _ => s.2⟩
      | Symbol sym =>
        cases sym with
        | OpenParens =>
          have h2 : parseStep fuel .parens (Token.Symbol .OpenParens :: l) =
              some (.ok (e, rest)) := h
          have s := ih .parens _ e rest h2
          exact ⟨s.1, fun _ => s.2 rfl⟩
        | CloseParens => simp [parseStep, parse_token] at h
        | Add => simp [parseStep, parse_token] at h
        | Sub => simp [parseStep, parse_token] at h
        | Mul => simp [parseStep, parse_token] at h
        | Div => simp [parseStep, parse_token] at h
        | Pow => simp [parseStep, parse_token] at h
        | ArrowConversion => simp [parseStep, parse_token] at h
  | apply =>
    simp only [parseStep] at h
    split at h
    next heq1 => simp at h
    next e1 heq1 => simp at h
    next res1 rem1 heq1 =>
      have s1 := ih .parensOrLiteral input res1 rem1 heq1
      have s2 := ih (.applyLoop res1) rem1 e rest h
      refine ⟨s2.1.trans s1.1, fun _ => ?_⟩
      have h21 := s2.1.length_le
      have h11 := s1.2 rfl
      omega
  | applyLoop r =>
    simp only [parseStep] at h
    split at h
    next heq1 => simp at h
    next e1 heq1 =>
      simp only [Option.some.injEq, Except.ok.injEq, Prod.mk.injEq] at h
      obtain ⟨-, hrest⟩ := h
      subst hrest
      exact ⟨List.suffix_rfl, fun hs => by simp [PId.strict] at hs⟩
    next term rem1 heq1 =>
      split at h
      next heq2 =>
        simp only [Option.some.injEq, Except.ok.injEq, Prod.mk.injEq] at h
        obtain ⟨-, hrest⟩ := h
        subst hrest
        exact ⟨List.suffix_rfl, fun hs => by simp [PId.strict] at hs⟩
      next res2 heq2 =>
        have s1 := ih .parensOrLiteral input term rem1 heq1
        have s2 := ih (.applyLoop res2) rem1 e rest h
        exact ⟨s2.1.trans s1.1, fun hs => by simp [PId.strict] at hs⟩
  | powerCont =>
    simp only [parseStep] at h
    split at h
    next heq1 => simp at h
    next u1 rem1 heq1 =>
      have s1 := parse_fixed_symbol_shape heq1
      have s2 := ih .power rem1 e rest h
      refine ⟨s2.1.trans s1.1, fun _ => ?_⟩
      have h21 := s2.1.length_le
      omega
  | power =>
    simp only [parseStep] at h
    split at h
    next u1 rem1 heq1 =>
      split at h
      next heq2 => simp at h
      next e2 heq2 => simp at h
      next res1 rem2 heq2 =>
        simp only [Option.some.injEq, Except.ok.injEq, Prod.mk.injEq] at h
        obtain ⟨-, hrest⟩ := h
        subst hrest
        have s1 := parse_fixed_symbol_shape heq1
        have s2 := ih .power rem1 res1 rem2 heq2
        refine ⟨s2.1.trans s1.1, fun _ => ?_⟩
        have h21 := s2.1.length_le
        omega
    next heq1 =>
      split at h
      next u1 rem1 heq2 =>
        split at h
        next heq3 => simp at h
        next e3 heq3 => simp at h
        next res1 rem2 heq3 =>
          simp only [Option.some.injEq, Except.ok.injEq, Prod.mk.injEq] at h
          obtain ⟨-, hrest⟩ := h
          subst hrest
          have s1 := parse_fixed_symbol_shape heq2
          have s2 := ih .power rem1 res1 rem2 heq3
          refine ⟨s2.1.trans s1.1, fun _ => ?_⟩
          have h21 := s2.1.length_le
          omega
      next heq2 =>
        split at h
        next heq3 => simp at h
        next e3 heq3 => simp at h
        next res1 rest1 heq3 =>
          split at h
          next heq4 => simp at h
          next e4 heq4 =>
            simp only [Option.some.injEq, Except.ok.injEq, Prod.mk.injEq] at h
            obtain ⟨-, hrest⟩ := h
            subst hrest
            have s1 := ih .apply input res1 rest1 heq3
            exact ⟨s1.1, fun _ => s1.2 rfl⟩
          next term rem4 heq4 =>
            simp only [Option.some.injEq, Except.ok.injEq, Prod.mk.injEq] at h
            obtain ⟨-, hrest⟩ := h
            subst hrest
            have s1 := ih .apply input res1 rest1 heq3
            have s2 := ih .powerCont rest1 term rem4 heq4
            refine ⟨s2.1.trans s1.1, fun _ => ?_⟩
            have h21 := s2.1.length_le
            have h11 := s1.2 rfl
            omega
  | mulCont =>
    simp only [parseStep] at h
    split at h
    next e1 heq1 => simp at h
    next u1 input1 heq1 =>
      have s1 := parse_fixed_symbol_shape heq1
      have s2 := ih .power input1 e rest h
      refine ⟨s2.1.trans s1.1, fun _ => ?_⟩
      have h21 := s2.1.length_le
      omega
  | divCont =>
    simp only [parseStep] at h
    split at h
    next e1 heq1 => simp at h
    next u1 input1 heq1 =>
      have s1 := parse_fixed_symbol_shape heq1
      have s2 := ih .power input1 e rest h
      refine ⟨s2.1.trans s1.1, fun _ => ?_⟩
      have h21 := s2.1.length_le
      omega
  | mulLoop r =>
    simp only [parseStep] at h
    split at h
    next heq1 => simp at h
    next term rem1 heq1 =>
      have s1 := ih .mulCont input term rem1 heq1
      have s2 := ih (.mulLoop (.Mul r term)) rem1 e rest h
      exact ⟨s2.1.trans s1.1, fun hs => by simp [PId.strict] at hs⟩
    next e1 heq1 =>
      split at h
      next heq2 => simp at h
      next term rem2 heq2 =>
        have s1 := ih .divCont input term rem2 heq2
        have s2 := ih (.mulLoop (.Div r term)) rem2 e rest h
        exact ⟨s2.1.trans s1.1, fun hs => by simp [PId.strict] at hs⟩
      next e2 heq2 =>
        simp only [Option.some.injEq, Except.ok.injEq, Prod.mk.injEq] at h
        obtain ⟨-, hrest⟩ := h
        subst hrest
        exact ⟨List.suffix_rfl, fun hs => by simp [PId.strict] at hs⟩
  | multiplicative =>
    simp only [parseStep] at h
    split at h
    next heq1 => simp at h
    next e1 heq1 => simp at h
    next res1 rem1 heq1 =>
      have s1 := ih .power input res1 rem1 heq1
      have s2 := ih (.mulLoop res1) rem1 e rest h
      refine ⟨s2.1.trans s1.1, fun _ => ?_⟩
      have h21 := s2.1.length_le
      have h11 := s1.2 rfl
      omega
  | compoundFraction =>
    simp only [parseStep] at h
    split at h
    next heq1 => simp at h
    next e1 heq1 => simp at h
    next res1 input1 heq1 =>
      have s1 := ih .multiplicative input res1 input1 heq1
      split at h
      next heq2 => simp at h
      next e2 heq2 =>
        simp only [Option.some.injEq, Except.ok.injEq, Prod.mk.injEq] at h
        obtain ⟨-, hrest⟩ := h
        subst hrest
        exact ⟨s1.1, fun _ => s1.2 rfl⟩
      next rhs rem2 heq2 =>
        have s2 := ih .multiplicative input1 rhs rem2 heq2
        split at h
        next comb heq3 =>
          simp only [Option.some.injEq, Except.ok.injEq, Prod.mk.injEq] at h
          obtain ⟨-, hrest⟩ := h
          subst hrest
          refine ⟨s2.1.trans s1.1, fun _ => ?_⟩
          have h21 := s2.1.length_le
          have h11 := s1.2 rfl
          omega
        next heq3 =>
          simp only [Option.some.injEq, Except.ok.injEq, Prod.mk.injEq] at h
          obtain ⟨-, hrest⟩ := h
          subst hrest
          exact ⟨s1.1, fun _ => s1.2 rfl⟩
  | addCont =>
    simp only [parseStep] at h
    split at h
    next e1 heq1 => simp at h
    next u1 input1 heq1 =>
      have s1 := parse_fixed_symbol_shape heq1
      have s2 := ih .compoundFraction input1 e rest h
      refine ⟨s2.1.trans s1.1, fun _ => ?_⟩
      have h21 := s2.1.length_le
      omega
  | subCont =>
    simp only [parseStep] at h
    split at h
    next e1 heq1 => simp at h
    next u1 input1 heq1 =>
      have s1 := parse_fixed_symbol_shape heq1
      have s2 := ih .compoundFraction input1 e rest h
      refine ⟨s2.1.trans s1.1, fun _ => ?_⟩
      have h21 := s2.1.length_le
      omega
  | addLoop r =>
    simp only [parseStep] at h
    split at h
    next heq1 => simp at h
    next term rem1 heq1 =>
      have s1 := ih .addCont input term rem1 heq1
      have s2 := ih (.addLoop (.Add r term)) rem1 e rest h
      exact ⟨s2.1.trans s1.1, fun hs => by simp [PId.strict] at hs⟩
    next e1 heq1 =>
      split at h
      next heq2 => simp at h
      next term rem2 heq2 =>
        have s1 := ih .subCont input term rem2 heq2
        have s2 := ih (.addLoop (.Sub r term)) rem2 e rest h
        exact ⟨s2.1.trans s1.1, fun hs => by simp [PId.strict] at hs⟩
      next e2 heq2 =>
        simp only [Option.some.injEq, Except.ok.injEq, Prod.mk.injEq] at h
        obtain ⟨-, hrest⟩ := h
        subst hrest
        exact ⟨List.suffix_rfl, fun hs => by simp [PId.strict] at hs⟩
  | additive =>
    simp only [parseStep] at h
    split at h
    next heq1 => simp at h
    next e1 heq1 => simp at h
    next res1 rem1 heq1 =>
      have s1 := ih .compoundFraction input res1 rem1 heq1
      have s2 := ih (.addLoop res1) rem1 e rest h
      refine ⟨s2.1.trans s1.1, fun _ => ?_⟩
      have h21 := s2.1.length_le
      have h11 := s1.2 rfl
      omega
  | arrowCont =>
    simp only [parseStep] at h
    split at h
    next e1 heq1 => simp at h
    next u1 input1 heq1 =>
      have s1 := parse_fixed_symbol_shape heq1
      have s2 := ih .additive input1 e rest h
      refine ⟨s2.1.trans s1.1, fun _ => ?_⟩
      have h21 := s2.1.length_le
      omega
  | arrowLoop r =>
    simp only [parseStep] at h
    split at h
    next heq1 => simp at h
    next term rem1 heq1 =>
      have s1 := ih .arrowCont input term rem1 heq1
      have s2 := ih (.arrowLoop (.As r term)) rem1 e rest h
      exact ⟨s2.1.trans s1.1, fun hs => by simp [PId.strict] at hs⟩
    next e1 heq1 =>
      simp only [Option.some.injEq, Except.ok.injEq, Prod.mk.injEq] at h
      obtain ⟨-, hrest⟩ := h
      subst hrest
      exact ⟨List.suffix_rfl, fun hs => by simp [PId.strict] at hs⟩
  | arrow =>
    simp only [parseStep] at h
    split at h
    next heq1 => simp at h
    next e1 heq1 => simp at h
    next res1 rem1 heq1 =>
      have s1 := ih .additive input res1 rem1 heq1
      have s2 := ih (.arrowLoop res1) rem1 e rest h
      refine ⟨s2.1.trans s1.1, fun _ => ?_⟩
      have h21 := s2.1.length_le
      have h11 := s1.2 rfl
      omega

theorem parseStep_suffix : ∀ fuel : ℕ, SuffixProp fuel := by
  intro fuel
  induction fuel with
  | zero => intro pid input e rest h; simp [parseStep] at h
  | succ fuel ih => exact suffixProp_step fuel ih

/-- The rank of a production: how far down the precedence chain it sits;
a call on the same input always goes to a strictly smaller rank. -/
def PId.rank : PId → ℕ
  | .parens => 0
  | .parensOrLiteral => 1
  | .applyLoop _ => 2
  | .apply => 3
  | .powerCont => 0
  | .power => 4
  | .mulCont => 0
  | .divCont => 0
  | .mulLoop _ => 1
  | .multiplicative => 5
  | .compoundFraction => 6
  | .addCont => 0
  | .subCont => 0
  | .addLoop _ => 1
  | .additive => 7
  | .arrowCont => 0
  | .arrowLoop _ => 1
  | .arrow => 8

/-- With fuel at least `rank + 1 + 11 * length`, the interpreter never runs
out of fuel: the parser terminates on every finite token sequence. -/
def FuelProp (fuel : ℕ) : Prop :=
  ∀ (pid : PId) (input : List Token),
    PId.rank pid + 1 + 11 * input.length ≤ fuel →
    parseStep fuel pid input ≠ none

theorem fuelProp_step (fuel : ℕ) (ih : FuelProp fuel) : FuelProp (fuel + 1) := by
  intro pid input hbound hcon
  cases pid with
  | parens =>
    simp only [parseStep] at hcon
    split at hcon
    next e1 heq1 => simp at hcon
    next u1 input1 heq1 =>
      have hlen : input1.length < input.length := (parse_fixed_symbol_shape heq1).2
      split at hcon
      next heq2 =>
        refine ih .arrow input1 ?_ heq2
        simp only [PId.rank] at hbound ⊢
        omega
      next e2 heq2 => simp at hcon
      next inner input2 heq2 =>
        split at hcon
        next e3 heq3 => simp at hcon
        next u3 input3 heq3 => simp at hcon
  | parensOrLiteral =>
    cases input with
    | nil => simp [parseStep, parse_token] at hcon
    | cons t l =>
      cases t with
      | Num n => simp [parseStep, parse_token] at hcon
      | Ident i => simp [parseStep, parse_token] at hcon
      | Symbol sym =>
        cases sym with
        | OpenParens =>
          have h2 : parseStep fuel .parens (Token.Symbol .OpenParens :: l) =
              none := hcon
          refine ih .parens _ ?_ h2
          simp only [PId.rank, List.length_cons] at hbound ⊢
          omega
        | CloseParens => simp [parseStep, parse_token] at hcon
        | Add => simp [parseStep, parse_token] at hcon
        | Sub => simp [parseStep, parse_token] at hcon
        | Mul => simp [parseStep, parse_token] at hcon
        | Div => simp [parseStep, parse_token] at hcon
        | Pow => simp [parseStep, parse_token] at hcon
        | ArrowConversion => simp [parseStep, parse_token] at hcon
  | apply =>
    simp only [parseStep] at hcon
    split at hcon
    next heq1 =>
      refine ih .parensOrLiteral input ?_ heq1
      simp only [PId.rank] at hbound ⊢
      omega
    next e1 heq1 => simp at hcon
    next res1 rem1 heq1 =>
      have hlen : rem1.length < input.length :=
        (parseStep_suffix fuel .parensOrLiteral input res1 rem1 heq1).2 rfl
      refine ih (.applyLoop res1) rem1 ?_ hcon
      simp only [PId.rank] at hbound ⊢
      omega
  | applyLoop r =>
    simp only [parseStep] at hcon
    split at hcon
    next heq1 =>
      refine ih .parensOrLiteral input ?_ heq1
      simp only [PId.rank] at hbound ⊢
      omega
    next e1 heq1 => simp at hcon
    next term rem1 heq1 =>
      split at hcon
      next heq2 => simp at hcon
      next res2 heq2 =>
        have hlen : rem1.length < input.length :=
          (parseStep_suffix fuel .parensOrLiteral input term rem1 heq1).2 rfl
        refine ih (.applyLoop res2) rem1 ?_ hcon
        simp only [PId.rank] at hbound ⊢
        omega
  | powerCont =>
    simp only [parseStep] at hcon
    split at hcon
    next heq1 => simp at hcon
    next u1 rem1 heq1 =>
      have hlen : rem1.length < input.length := (parse_fixed_symbol_shape heq1).2
      refine ih .power rem1 ?_ hcon
      simp only [PId.rank] at hbound ⊢
      omega
  | power =>
    simp only [parseStep] at hcon
    split at hcon
    next u1 rem1 heq1 =>
      have hlen : rem1.length < input.length := (parse_fixed_symbol_shape heq1).2
      split at hcon
      next heq2 =>
        refine ih .power rem1 ?_ heq2
        simp only [PId.rank] at hbound ⊢
        omega
      next e2 heq2 => simp at hcon
      next res1 rem2 heq2 => simp at hcon
    next heq1 =>
      split at hcon
      next u1 rem1 heq2 =>
        have hlen : rem1.length < input.length := (parse_fixed_symbol_shape heq2).2
        split at hcon
        next heq3 =>
          refine ih .power rem1 ?_ heq3
          simp only [PId.rank] at hbound ⊢
          omega
        next e3 heq3 => simp at hcon
        next res1 rem2 heq3 => simp at hcon
      next heq2 =>
        split at hcon
        next heq3 =>
          refine ih .apply input ?_ heq3
          simp only [PId.rank] at hbound ⊢
          omega
        next e3 heq3 => simp at hcon
        next res1 rest1 heq3 =>
          have hlen : rest1.length < input.length :=
            (parseStep_suffix fuel .apply input res1 rest1 heq3).2 rfl
          split at hcon
          next heq4 =>
            refine ih .powerCont rest1 ?_ heq4
            simp only [PId.rank] at hbound ⊢
            omega
          next e4 heq4 => simp at hcon
          next term rem4 heq4 => simp at hcon
  | mulCont =>
    simp only [parseStep] at hcon
    split at hcon
    next e1 heq1 => simp at hcon
    next u1 input1 heq1 =>
      have hlen : input1.length < input.length := (parse_fixed_symbol_shape heq1).2
      refine ih .power input1 ?_ hcon
      simp only [PId.rank] at hbound ⊢
      omega
  | divCont =>
    simp only [parseStep] at hcon
    split at hcon
    next e1 heq1 => simp at hcon
    next u1 input1 heq1 =>
      have hlen : input1.length < input.length := (parse_fixed_symbol_shape heq1).2
      refine ih .power input1 ?_ hcon
      simp only [PId.rank] at hbound ⊢
      omega
  | mulLoop r =>
    simp only [parseStep] at hcon
    split at hcon
    next heq1 =>
      refine ih .mulCont input ?_ heq1
      simp only [PId.rank] at hbound ⊢
      omega
    next term rem1 heq1 =>
      have hlen : rem1.length < input.length :=
        (parseStep_suffix fuel .mulCont input term rem1 heq1).2 rfl
      refine ih (.mulLoop (.Mul r term)) rem1 ?_ hcon
      simp only [PId.rank] at hbound ⊢
      omega
    next e1 heq1 =>
      split at hcon
      next heq2 =>
        refine ih .divCont input ?_ heq2
        simp only [PId.rank] at hbound ⊢
        omega
      next term rem2 heq2 =>
        have hlen : rem2.length < input.length :=
          (parseStep_suffix fuel .divCont input term rem2 heq2).2 rfl
        refine ih (.mulLoop (.Div r term)) rem2 ?_ hcon
        simp only [PId.rank] at hbound ⊢
        omega
      next e2 heq2 => simp at hcon
  | multiplicative =>
    simp only [parseStep] at hcon
    split at hcon
    next heq1 =>
      refine ih .power input ?_ heq1
      simp only [PId.rank] at hbound ⊢
      omega
    next e1 heq1 => simp at hcon
    next res1 rem1 heq1 =>
      have hlen : rem1.length < input.length :=
        (parseStep_suffix fuel .power input res1 rem1 heq1).2 rfl
      refine ih (.mulLoop res1) rem1 ?_ hcon
      simp only [PId.rank] at hbound ⊢
      omega
  | compoundFraction =>
    simp only [parseStep] at hcon
    split at hcon
    next heq1 =>
      refine ih .multiplicative input ?_ heq1
      simp only [PId.rank] at hbound ⊢
      omega
    next e1 heq1 => simp at hcon
    next res1 input1 heq1 =>
      have hlen : input1.length < input.length :=
        (parseStep_suffix fuel .multiplicative input res1 input1 heq1).2 rfl
      split at hcon
      next heq2 =>
        refine ih .multiplicative input1 ?_ heq2
        simp only [PId.rank] at hbound ⊢
        omega
      next e2 heq2 => simp at hcon
      next rhs rem2 heq2 =>
        split at hcon
        next comb heq3 => simp at hcon
        next heq3 => simp at hcon
  | addCont =>
    simp only [parseStep] at hcon
    split at hcon
    next e1 heq1 => simp at hcon
    next u1 input1 heq1 =>
      have hlen : input1.length < input.length := (parse_fixed_symbol_shape heq1).2
      refine ih .compoundFraction input1 ?_ hcon
      simp only [PId.rank] at hbound ⊢
      omega
  | subCont =>
    simp only [parseStep] at hcon
    split at hcon
    next e1 heq1 => simp at hcon
    next u1 input1 heq1 =>
      have hlen : input1.length < input.length := (parse_fixed_symbol_shape heq1).2
      refine ih .compoundFraction input1 ?_ hcon
      simp only [PId.rank] at hbound ⊢
      omega
  | addLoop r =>
    simp only [parseStep] at hcon
    split at hcon
    next heq1 =>
      refine ih .addCont input ?_ heq1
      simp only [PId.rank] at hbound ⊢
      omega
    next term rem1 heq1 =>
      have hlen : rem1.length < input.length :=
        (parseStep_suffix fuel .addCont input term rem1 heq1).2 rfl
      refine ih (.addLoop (.Add r term)) rem1 ?_ hcon
      simp only [PId.rank] at hbound ⊢
      omega
    next e1 heq1 =>
      split at hcon
      next heq2 =>
        refine ih .subCont input ?_ heq2
        simp only [PId.rank] at hbound ⊢
        omega
      next term rem2 heq2 =>
        have hlen : rem2.length < input.length :=
          (parseStep_suffix fuel .subCont input term rem2 heq2).2 rfl
        refine ih (.addLoop (.Sub r term)) rem2 ?_ hcon
        simp only [PId.rank] at hbound ⊢
        omega
      next e2 heq2 => simp at hcon
  | additive =>
    simp only [parseStep] at hcon
    split at hcon
    next heq1 =>
      refine ih .compoundFraction input ?_ heq1
      simp only [PId.rank] at hbound ⊢
      omega
    next e1 heq1 => simp at hcon
    next res1 rem1 heq1 =>
      have hlen : rem1.length < input.length :=
        (parseStep_suffix fuel .compoundFraction input res1 rem1 heq1).2 rfl
      refine ih (.addLoop res1) rem1 ?_ hcon
      simp only [PId.rank] at hbound ⊢
      omega
  | arrowCont =>
    simp only [parseStep] at hcon
    split at hcon
    next e1 heq1 => simp at hcon
    next u1 input1 heq1 =>
      have hlen : input1.length < input.length := (parse_fixed_symbol_shape heq1).2
      refine ih .additive input1 ?_ hcon
      simp only [PId.rank] at hbound ⊢
      omega
  | arrowLoop r =>
    simp only [parseStep] at hcon
    split at hcon
    next heq1 =>
      refine ih .arrowCont input ?_ heq1
      simp only [PId.rank] at hbound ⊢
      omega
    next term rem1 heq1 =>
      have hlen : rem1.length < input.length :=
        (parseStep_suffix fuel .arrowCont input term rem1 heq1).2 rfl
      refine ih (.arrowLoop (.As r term)) rem1 ?_ hcon
      simp only [PId.rank] at hbound ⊢
      omega
    next e1 heq1 => simp at hcon
  | arrow =>
    simp only [parseStep] at hcon
    split at hcon
    next heq1 =>
      refine ih .additive input ?_ heq1
      simp only [PId.rank] at hbound ⊢
      omega
    next e1 heq1 => simp at hcon
    next res1 rem1 heq1 =>
      have hlen : rem1.length < input.length :=
        (parseStep_suffix fuel .additive input res1 rem1 heq1).2 rfl
      refine ih (.arrowLoop res1) rem1 ?_ hcon
      simp only [PId.rank] at hbound ⊢
      omega

theorem parseStep_fuel : ∀ fuel : ℕ, FuelProp fuel := by
  intro fuel
  induction fuel with
  | zero =>
    intro pid input hbound
    simp at hbound
  | succ fuel ih => exact fuelProp_step fuel ih

/-- Map a function over the expression of a parse outcome. -/
def presMap (g : Expr → Expr) :
    Option (ParseResult Expr) → Option (ParseResult Expr)
  | none => none
  | some (.error e) => some (.error e)
  | some (.ok (res, rest)) => some (.ok (g res, rest))

/-- C8: at the Power level a leading unary minus (or plus) wraps the entire
following power expression including its exponentiation continuation, and a
caret continuation recurses into a full power on the right, making the
operator right-associative; so the tokens of -2^2 parse as
UnaryMinus(Pow(2, 2)) and those of 2^3^2 parse as Pow(2, Pow(3, 2)). -/
theorem claim_C8 :
    (∀ (fuel : ℕ) (rest : List Token),
      parse_power (fuel + 1) (Token.Symbol .Sub :: rest) =
        presMap Expr.UnaryMinus (parse_power fuel rest)) ∧
      (∀ (fuel : ℕ) (rest : List Token),
        parse_power (fuel + 1) (Token.Symbol .Add :: rest) =
          presMap Expr.UnaryPlus (parse_power fuel rest)) ∧
      (∀ (fuel : ℕ) (rest : List Token),
        parse_power_cont (fuel + 1) (Token.Symbol .Pow :: rest) =
          parse_power fuel rest) ∧
      parse_expression 30 [.Symbol .Sub, .Num 2, .Symbol .Pow, .Num 2] =
        some (.ok (.UnaryMinus (.Pow (.Num 2) (.Num 2)), [])) ∧
      parse_expression 30 [.Num 2, .Symbol .Pow, .Num 3, .Symbol .Pow, .Num 2] =
        some (.ok (.Pow (.Num 2) (.Pow (.Num 3) (.Num 2)), [])) := by
  refine ⟨?_, ?_, ?_, rfl, rfl⟩
  · intro fuel rest
    cases hx : parseStep fuel .power rest with
    | none =>
      simp [parse_power, parseStep, parse_fixed_symbol, parse_token, presMap, hx]
    | some r =>
      cases r with
      | error e =>
        simp [parse_power, parseStep, parse_fixed_symbol, parse_token, presMap, hx]
      | ok pr =>
        obtain ⟨res, rem⟩ := pr
        simp [parse_power, parseStep, parse_fixed_symbol, parse_token, presMap, hx]
  · intro fuel rest
    cases hx : parseStep fuel .power rest with
    | none =>
      simp [parse_power, parseStep, parse_fixed_symbol, parse_token, presMap, hx]
    | some r =>
      cases r with
      | error e =>
        simp [parse_power, parseStep, parse_fixed_symbol, parse_token, presMap, hx]
      | ok pr =>
        obtain ⟨res, rem⟩ := pr
        simp [parse_power, parseStep, parse_fixed_symbol, parse_token, presMap, hx]
  · intro fuel rest
    rfl

/-- C9: after one multiplicative term the parser speculatively parses a
second, and exactly three shape pairs combine — Num with Div(Num, Num) as an
Add (mixed number), UnaryMinus(Num) with Div(Num, Num) as a Sub, ApplyMul
with ApplyMul as an Add (like 6 feet 1 inch) — while every other shape pair,
or a failing second parse, discards the speculative term and returns the
first term with no input consumed beyond it. -/
theorem claim_C9 :
    (∀ res rhs c, cfCombine res rhs = some c ↔
      ((∃ n p q, res = Expr.Num n ∧ rhs = Expr.Div (.Num p) (.Num q) ∧
          c = Expr.Add res rhs) ∨
        (∃ n p q, res = Expr.UnaryMinus (.Num n) ∧
          rhs = Expr.Div (.Num p) (.Num q) ∧ c = Expr.Sub res rhs) ∨
        (∃ a b x y, res = Expr.ApplyMul a b ∧ rhs = Expr.ApplyMul x y ∧
          c = Expr.Add res rhs))) ∧
      (∀ (fuel : ℕ) (input : List Token) (res : Expr) (input1 : List Token),
        parse_multiplicative fuel input = some (.ok (res, input1)) →
        (∀ rhs remaining c,
          parse_multiplicative fuel input1 = some (.ok (rhs, remaining)) →
          cfCombine res rhs = some c →
          parse_compound_fraction (fuel + 1) input = some (.ok (c, remaining))) ∧
          (∀ rhs remaining,
            parse_multiplicative fuel input1 = some (.ok (rhs, remaining)) →
            cfCombine res rhs = none →
            parse_compound_fraction (fuel + 1) input =
              some (.ok (res, input1))) ∧
          (∀ e, parse_multiplicative fuel input1 = some (.error e) →
            parse_compound_fraction (fuel + 1) input =
              some (.ok (res, input1)))) ∧
      parse_compound_fraction 30 [.Num 8, .Num 1, .Symbol .Div, .Num 2] =
        some (.ok (.Add (.Num 8) (.Div (.Num 1) (.Num 2)), [])) ∧
      parse_compound_fraction 30
          [.Symbol .Sub, .Num 8, .Num 1, .Symbol .Div, .Num 2] =
        some (.ok (.Sub (.UnaryMinus (.Num 8)) (.Div (.Num 1) (.Num 2)), [])) ∧
      parse_compound_fraction 30 [.Num 6, .Ident "feet", .Num 1, .Ident "inch"] =
        some (.ok (.Add (.ApplyMul (.Num 6) (.Ident "feet"))
          (.ApplyMul (.Num 1) (.Ident "inch")), [])) := by
  refine ⟨?_, ?_, rfl, rfl, rfl⟩
  · intro res rhs c
    constructor
    · intro h
      unfold cfCombine at h
      split at h
      next n p q =>
        exact Or.inl ⟨n, p, q, rfl, rfl, (Option.some.inj h).symm⟩
      next n p q =>
        exact Or.inr (Or.inl ⟨n, p, q, rfl, rfl, (Option.some.inj h).symm⟩)
      next a b x y =>
        exact Or.inr (Or.inr ⟨a, b, x, y, rfl, rfl, (Option.some.inj h).symm⟩)
      all_goals simp at h
    · intro h
      rcases h with ⟨n, p, q, h1, h2, h3⟩ | ⟨n, p, q, h1, h2, h3⟩ |
        ⟨a, b, x, y, h1, h2, h3⟩ <;> subst h1 <;> subst h2 <;> subst h3 <;>
        simp [cfCombine]
  · intro fuel input res input1 hm1
    simp only [parse_multiplicative] at hm1
    refine ⟨?_, ?_, ?_⟩
    · intro rhs remaining c hm2 hcomb
      simp only [parse_multiplicative] at hm2
      simp only [parse_compound_fraction, parseStep, hm1, hm2, hcomb]
    · intro rhs remaining hm2 hcomb
      simp only [parse_multiplicative] at hm2
      simp only [parse_compound_fraction, parseStep, hm1, hm2, hcomb]
    · intro e hm2
      simp only [parse_multiplicative] at hm2
      simp only [parse_compound_fraction, parseStep, hm1, hm2]

theorem claim_C9_witness :
    parse_multiplicative 29 [Token.Num 8, .Num 1, .Symbol .Div, .Num 2] =
        some (.ok (.Num 8, [Token.Num 1, .Symbol .Div, .Num 2])) ∧
      parse_multiplicative 29 [Token.Num 1, .Symbol .Div, .Num 2] =
        some (.ok (.Div (.Num 1) (.Num 2), [])) ∧
      cfCombine (.Num 8) (.Div (.Num 1) (.Num 2)) =
        some (.Add (.Num 8) (.Div (.Num 1) (.Num 2))) ∧
      parse_compound_fraction 30 [Token.Num 8, .Num 1, .Symbol .Div, .Num 2] =
        some (.ok (.Add (.Num 8) (.Div (.Num 1) (.Num 2)), [])) :=
  ⟨rfl, rfl, rfl,
    (claim_C9.2.1 29 [Token.Num 8, .Num 1, .Symbol .Div, .Num 2] (.Num 8)
        [Token.Num 1, .Symbol .Div, .Num 2] rfl).1 (.Div (.Num 1) (.Num 2)) []
      (.Add (.Num 8) (.Div (.Num 1) (.Num 2))) rfl rfl⟩

/-- C10: every production, whenever it succeeds, returns a remaining token
list that is a suffix of its input (discarded speculative parses consume
nothing, the embedding being pure); the atom production consumes at least
one token on success; and with fuel rank + 1 + 11·length the interpreter
never exhausts its fuel, so every folding loop and the mutual recursion
through parentheses terminate on every finite token sequence. -/
theorem claim_C10 :
    (∀ (fuel : ℕ) (pid : PId) (input : List Token) (e : Expr)
        (rest : List Token),
      parseStep fuel pid input = some (.ok (e, rest)) → rest.IsSuffix input) ∧
      (∀ (fuel : ℕ) (input : List Token) (e : Expr) (rest : List Token),
        parse_parens_or_literal fuel input = some (.ok (e, rest)) →
          rest.length < input.length) ∧
      (∀ (pid : PId) (input : List Token),
        parseStep (PId.rank pid + 1 + 11 * input.length) pid input ≠ none) ∧
      (∀ input : List Token,
        parse_expression (11 * input.length + 10) input ≠ none) := by
  refine ⟨?_, ?_, ?_, ?_⟩
  · intro fuel pid input e rest h
    exact (parseStep_suffix fuel pid input e rest h).1
  · intro fuel input e rest h
    exact (parseStep_suffix fuel .parensOrLiteral input e rest h).2 rfl
  · intro pid input
    exact parseStep_fuel _ pid input le_rfl
  · intro input
    refine parseStep_fuel _ .arrow input ?_
    simp only [PId.rank]
    omega

theorem claim_C10_witness :
    parse_parens_or_literal 20 [Token.Num 3] = some (.ok (.Num 3, [])) ∧
      List.IsSuffix ([] : List Token) [Token.Num 3] ∧
      ([] : List Token).length < [Token.Num 3].length ∧
      parse_expression (11 * 1 + 10) [Token.Num 3] ≠ none :=
  ⟨rfl, claim_C10.1 20 .parensOrLiteral [Token.Num 3] (.Num 3) [] rfl,
    claim_C10.2.1 20 [Token.Num 3] (.Num 3) [] rfl,
    claim_C10.2.2.2 [Token.Num 3]⟩

end Fend
